import Mathlib

/-!
Verification of the medical spell-checker core.

This file gives a shallow embedding, in Lean 4, of the core algorithms of the
spell checker (`backend/utils/edit_distance.py`, `backend/utils/frequency_manager.py`,
`backend/utils/homophone_detector.py`, `backend/utils/spellchecker.py`) and proves
properties of that embedding.

Modelling conventions:
* Python strings are modelled as `String` / `List Char`; `str.lower` is modelled with
  `Char.toLower` (the inputs of interest are ASCII).
* Python `float` arithmetic is modelled as exact rational arithmetic over `ℚ`.
* Python `dict` / `Counter` are modelled as association lists; `Counter.get(k, 0)`
  is an association-list lookup defaulting to `0`.
* Python `set` iteration (over the vocabulary) is modelled by a `List` that records
  the iteration order of the set; set membership is list membership.
* A Python division that is *not* guarded by the source is modelled as `Option ℚ`
  returning `none` on a zero denominator (a `ZeroDivisionError`); guarded divisions
  follow the source's guards.
* `list.sort` / `sorted` (stable sorts in Python) are modelled by a stable insertion
  sort `stableSort`.
-/

/-! ### Generic helpers -/

/-- Stable insertion of `x` into `l`: `x` is placed after every element `y` with
`le y x`.  Used to model Python's stable sorts. -/
def insertSorted (le : α → α → Bool) (x : α) : List α → List α
  | [] => [x]
  | y :: ys => if le y x then y :: insertSorted le x ys else x :: y :: ys

/-- Stable sort (insertion sort, inserting left to right), modelling Python's
`list.sort` / `sorted`, which are stable. -/
def stableSort (le : α → α → Bool) (l : List α) : List α :=
  l.foldl (fun acc x => insertSorted le x acc) []

theorem insertSorted_perm (le : α → α → Bool) (x : α) (l : List α) :
    (insertSorted le x l).Perm (x :: l) := by
  induction l with
  | nil => simp [insertSorted]
  | cons y ys ih =>
      simp only [insertSorted]
      split
      · exact ((ih.cons y).trans (List.Perm.swap x y ys)).symm.symm
      · exact List.Perm.refl _

theorem stableSort_perm (le : α → α → Bool) (l : List α) :
    (stableSort le l).Perm l := by
  suffices h : ∀ acc : List α, (l.foldl (fun acc x => insertSorted le x acc) acc).Perm
      (acc ++ l) by
    simpa using h []
  induction l with
  | nil => intro acc; simp
  | cons x xs ih =>
      intro acc
      simp only [List.foldl_cons]
      refine ((ih (insertSorted le x acc)).trans ?_)
      have h1 : (insertSorted le x acc).Perm (x :: acc) := insertSorted_perm le x acc
      exact (h1.append_right xs).trans List.perm_middle.symm

theorem insertSorted_pairwise (le : α → α → Bool)
    (htot : ∀ a b, le a b = true ∨ le b a = true)
    (htrans : ∀ a b c, le a b = true → le b c = true → le a c = true)
    (x : α) (l : List α) (h : l.Pairwise (fun a b => le a b = true)) :
    (insertSorted le x l).Pairwise (fun a b => le a b = true) := by
  induction l with
  | nil => simp [insertSorted]
  | cons y ys ih =>
      simp only [insertSorted]
      rcases h with - | ⟨hy, hys⟩
      split
      · next hle =>
          refine List.Pairwise.cons ?_ (ih hys)
          intro z hz
          have hz' := (insertSorted_perm le x ys).mem_iff.mp hz
          rcases List.mem_cons.mp hz' with rfl | hz''
          · exact hle
          · exact hy z hz''
      · next hle =>
          have hxy : le x y = true := by
            rcases htot x y with h1 | h1
            · exact h1
            · exact absurd h1 hle
          refine List.Pairwise.cons ?_ (List.Pairwise.cons hy hys)
          intro z hz
          rcases List.mem_cons.mp hz with rfl | hz'
          · exact hxy
          · exact htrans x y z hxy (hy z hz')

theorem stableSort_pairwise (le : α → α → Bool)
    (htot : ∀ a b, le a b = true ∨ le b a = true)
    (htrans : ∀ a b c, le a b = true → le b c = true → le a c = true)
    (l : List α) :
    (stableSort le l).Pairwise (fun a b => le a b = true) := by
  suffices h : ∀ acc : List α, acc.Pairwise (fun a b => le a b = true) →
      (l.foldl (fun acc x => insertSorted le x acc) acc).Pairwise
        (fun a b => le a b = true) by
    exact h [] (by simp)
  induction l with
  | nil => intro acc hacc; simpa using hacc
  | cons x xs ih =>
      intro acc hacc
      simp only [List.foldl_cons]
      exact ih _ (insertSorted_pairwise le htot htrans x acc hacc)

/-- Association-list lookup with default, modelling `dict.get(k, d)` /
`Counter.get(k, d)`. -/
def alistGet [DecidableEq κ] (l : List (κ × ν)) (k : κ) (d : ν) : ν :=
  ((l.find? (fun p => p.1 = k)).map (fun p => p.2)).getD d

/-- Lowercasing a string character by character, modelling `str.lower()` for the
ASCII inputs this system works with. -/
def lowerStr (s : String) : String :=
  ⟨s.data.map Char.toLower⟩

/-- `str.isalpha()`: non-empty and every character alphabetic. -/
def pyIsAlpha (s : String) : Bool :=
  !s.data.isEmpty && s.data.all Char.isAlpha

/-! ### `EditDistanceCalculator` (backend/utils/edit_distance.py)

The configuration fields read in `EditDistanceCalculator.__init__`, with the
defaults the source supplies to `config.get`.  (`transpose_cost` is read from the
configuration but never used by any of the algorithms.) -/

structure EditDistanceCalculator where
  max_distance : Nat := 2
  allow_transpose : Bool := true
  substitution_cost : Nat := 1
  insertion_cost : Nat := 1
  deletion_cost : Nat := 1
  transpose_cost : Nat := 1

/-- The table of values computed by the two nested loops of
`levenshtein_distance`: `levTable insC delC subC a b i j` is the distance between
the length-`i` prefix of `a` and the length-`j` prefix of `b`, written as the
recurrence that each loop iteration evaluates
(`insertions = previous_row[j+1] + insertion_cost`,
`deletions = current_row[j] + deletion_cost`,
`substitutions = previous_row[j] + (substitution_cost if c1 != c2 else 0)`). -/
def levTable (insC delC subC : Nat) (a b : List Char) : Nat → Nat → Nat
  | 0, j => j
  | i+1, 0 => i+1
  | i+1, j+1 =>
      min (levTable insC delC subC a b i (j+1) + insC)
        (min (levTable insC delC subC a b (i+1) j + delC)
          (levTable insC delC subC a b i j +
            (if a.getD i ' ' = b.getD j ' ' then 0 else subC)))

/-- One iteration of the inner loop of `levenshtein_distance`: given the previous
row (as the sub-list starting at column `j`), the remaining characters of `word2`,
and the entry `left` just written into the current row, produce the rest of the
current row. -/
def levRow (insC delC subC : Nat) (c1 : Char) :
    List Char → List Nat → Nat → List Nat
  | c2 :: bs, p0 :: p1 :: ps, left =>
      min (p1 + insC) (min (left + delC) (p0 + (if c1 = c2 then 0 else subC))) ::
        levRow insC delC subC c1 bs (p1 :: ps)
          (min (p1 + insC) (min (left + delC) (p0 + (if c1 = c2 then 0 else subC))))
  | _, _, _ => []

/-- The outer loop of `levenshtein_distance`: fold the row update over the
characters of `word1` (`i` is the number of rows already produced), starting from
`previous_row = range(len(word2) + 1)`. -/
def levRows (insC delC subC : Nat) (b : List Char) :
    List Char → List Nat → Nat → List Nat
  | [], prev, _ => prev
  | c1 :: rest, prev, i =>
      levRows insC delC subC b rest
        ((i+1) :: levRow insC delC subC c1 b prev (i+1)) (i+1)

/-- `EditDistanceCalculator.levenshtein_distance`.  Swaps the words so that
`word1` is the longer one, returns `len(word1)` when `word2` is empty, and
otherwise runs the two-row dynamic program, returning `previous_row[-1]`. -/
def levenshtein_distance (E : EditDistanceCalculator) (word1 word2 : List Char) :
    Nat :=
  if word1.length < word2.length then levenshtein_distance E word2 word1
  else if word2.length = 0 then word1.length
  else
    (levRows E.insertion_cost E.deletion_cost E.substitution_cost word2 word1
      (List.range (word2.length + 1)) 0).getLastD 0
termination_by word2.length

/-- The value held in `char_array` for character `c` when row `i+1` of the
Damerau–Levenshtein matrix is about to be processed: the largest row index
`r ≤ i` with `word1[r-1] = c`, and `0` if there is none.  The same function,
applied to `word2`, gives the value of `DB` inside a row. -/
def lastRow (a : List Char) (c : Char) : Nat → Nat
  | 0 => 0
  | n+1 => if a.getD n ' ' = c then n+1 else lastRow a c n

theorem lastRow_le (a : List Char) (c : Char) (n : Nat) : lastRow a c n ≤ n := by
  induction n with
  | zero => simp [lastRow]
  | succ n ih => simp only [lastRow]; split <;> omega

/-- The table filled in by `damerau_levenshtein_distance`:
`dlTable insC delC a b i j` is the entry `H[i+1][j+1]` of the source's matrix
(the distance between the length-`i` prefix of `a` and the length-`j` prefix of
`b`).  The boundary rows `H[0][·]`, `H[·][0]` hold `max_dist = len1 + len2`, so
the transposition reference `H[k][l]` is that value whenever `k = 0` or `l = 0`
and `dlTable (k-1) (l-1)` otherwise; `k` and `l` are the values of
`char_array[word2[j-1]]` and `DB` at that iteration (see `lastRow`).  The four
candidate costs appear in the source's order: substitution (`H[i][j] + cost`,
with the hard-coded cost `1`), insertion (`H[i+1][j] + insertion_cost`), deletion
(`H[i][j+1] + deletion_cost`), transposition
(`H[k][l] + (i-k-1) + 1 + (j-l-1)`). -/
def dlTable (insC delC : Nat) (a b : List Char) : Nat → Nat → Nat
  | 0, j => j
  | i+1, 0 => i+1
  | i+1, j+1 =>
      min (dlTable insC delC a b i j + (if a.getD i ' ' = b.getD j ' ' then 0 else 1))
        (min (dlTable insC delC a b (i+1) j + insC)
          (min (dlTable insC delC a b i (j+1) + delC)
            ((if 1 ≤ lastRow a (b.getD j ' ') i ∧ 1 ≤ lastRow b (a.getD i ' ') j then
                dlTable insC delC a b (lastRow a (b.getD j ' ') i - 1)
                  (lastRow b (a.getD i ' ') j - 1)
              else a.length + b.length)
              + (i + 1 - lastRow a (b.getD j ' ') i - 1) + 1
              + (j + 1 - lastRow b (a.getD i ' ') j - 1))))
termination_by i j => (i, j)
decreasing_by
  · exact Prod.Lex.left _ _ (by omega)
  · exact Prod.Lex.right _ (by omega)
  · exact Prod.Lex.left _ _ (by omega)
  · exact Prod.Lex.left _ _ (by have := lastRow_le a (b.getD j ' ') i; omega)

/-- `EditDistanceCalculator.damerau_levenshtein_distance`: the bottom-right entry
`H[len1+1][len2+1]` of the matrix. -/
def damerau_levenshtein_distance (E : EditDistanceCalculator)
    (word1 word2 : List Char) : Nat :=
  dlTable E.insertion_cost E.deletion_cost word1 word2 word1.length word2.length

/-! ### Properties of the Levenshtein table -/

theorem levTable_zero_left (insC delC subC : Nat) (a b : List Char) (j : Nat) :
    levTable insC delC subC a b 0 j = j := by
  simp [levTable]

theorem levTable_zero_right (insC delC subC : Nat) (a b : List Char) (i : Nat) :
    levTable insC delC subC a b i 0 = i := by
  cases i <;> simp [levTable]

theorem levTable_succ_succ (insC delC subC : Nat) (a b : List Char) (i j : Nat) :
    levTable insC delC subC a b (i+1) (j+1) =
      min (levTable insC delC subC a b i (j+1) + insC)
        (min (levTable insC delC subC a b (i+1) j + delC)
          (levTable insC delC subC a b i j +
            (if a.getD i ' ' = b.getD j ' ' then 0 else subC))) := by
  simp [levTable]

/-- The Levenshtein table is symmetric, with the roles of the insertion and
deletion costs exchanged. -/
theorem levTable_symm (insC delC subC : Nat) (a b : List Char) (i j : Nat) :
    levTable insC delC subC a b i j = levTable delC insC subC b a j i := by
  suffices h : ∀ n i j, i + j ≤ n →
      levTable insC delC subC a b i j = levTable delC insC subC b a j i from
    h (i + j) i j le_rfl
  intro n
  induction n with
  | zero =>
      intro i j h
      have hi : i = 0 := by omega
      have hj : j = 0 := by omega
      subst hi; subst hj
      simp [levTable]
  | succ n ih =>
      intro i j h
      cases i with
      | zero => cases j <;> simp [levTable]
      | succ i =>
          cases j with
          | zero => simp [levTable]
          | succ j =>
              have h1 := ih i (j+1) (by omega)
              have h2 := ih (i+1) j (by omega)
              have h3 := ih i j (by omega)
              rw [levTable_succ_succ, levTable_succ_succ, h1, h2, h3]
              have hc : (if b.getD j ' ' = a.getD i ' ' then 0 else subC) =
                  (if a.getD i ' ' = b.getD j ' ' then 0 else subC) := by
                rcases eq_or_ne (a.getD i ' ') (b.getD j ' ') with hab | hab
                · rw [if_pos hab.symm, if_pos hab]
                · rw [if_neg (fun hh => hab hh.symm), if_neg hab]
              rw [hc]
              generalize levTable delC insC subC b a (j+1) i = A
              generalize levTable delC insC subC b a j (i+1) = B
              generalize levTable delC insC subC b a j i = C
              generalize (if a.getD i ' ' = b.getD j ' ' then 0 else subC) = s
              omega

/-- On the diagonal with both arguments the same word the table is `0`. -/
theorem levTable_diag (insC delC subC : Nat) (a : List Char) (i : Nat) :
    levTable insC delC subC a a i i = 0 := by
  induction i with
  | zero => simp [levTable]
  | succ i ih =>
      rw [levTable_succ_succ, if_pos rfl, ih]
      omega

/-- Upper bound: with unit insertion and deletion costs the table entry is at
most `i + j` (delete everything, insert everything). -/
theorem levTable_le_add (subC : Nat) (a b : List Char) :
    ∀ i j, levTable 1 1 subC a b i j ≤ i + j := by
  intro i
  induction i with
  | zero => intro j; simp [levTable]
  | succ i ih =>
      intro j
      cases j with
      | zero => simp [levTable_zero_right]
      | succ j =>
          have h1 := ih (j+1)
          rw [levTable_succ_succ]
          omega

/-- Lower bound: with unit insertion and deletion costs,
`i ≤ levTable i j + j` (each deleted character costs at least one). -/
theorem levTable_lower_left (subC : Nat) (a b : List Char) :
    ∀ i j, i ≤ levTable 1 1 subC a b i j + j := by
  suffices h : ∀ n i j, i + j ≤ n → i ≤ levTable 1 1 subC a b i j + j from
    fun i j => h (i + j) i j le_rfl
  intro n
  induction n with
  | zero => intro i j h; omega
  | succ n ih =>
      intro i j h
      cases i with
      | zero => omega
      | succ i =>
          cases j with
          | zero => rw [levTable_zero_right]
          | succ j =>
              have h1 := ih i (j+1) (by omega)
              have h2 := ih (i+1) j (by omega)
              have h3 := ih i j (by omega)
              rw [levTable_succ_succ]
              generalize levTable 1 1 subC a b i (j+1) = A at h1
              generalize levTable 1 1 subC a b (i+1) j = B at h2
              generalize levTable 1 1 subC a b i j = C at h3
              omega

/-- Lower bound: with unit insertion and deletion costs, `j ≤ levTable i j + i`. -/
theorem levTable_lower_right (subC : Nat) (a b : List Char) :
    ∀ i j, j ≤ levTable 1 1 subC a b i j + i := by
  suffices h : ∀ n i j, i + j ≤ n → j ≤ levTable 1 1 subC a b i j + i from
    fun i j => h (i + j) i j le_rfl
  intro n
  induction n with
  | zero => intro i j h; omega
  | succ n ih =>
      intro i j h
      cases i with
      | zero => simp [levTable]
      | succ i =>
          cases j with
          | zero => omega
          | succ j =>
              have h1 := ih i (j+1) (by omega)
              have h2 := ih (i+1) j (by omega)
              have h3 := ih i j (by omega)
              rw [levTable_succ_succ]
              generalize levTable 1 1 subC a b i (j+1) = A at h1
              generalize levTable 1 1 subC a b (i+1) j = B at h2
              generalize levTable 1 1 subC a b i j = C at h3
              omega

/-- Removing the last column changes a unit-cost table entry by at most one
(first half), and similarly for the last row (second half). -/
theorem levTable_neighbor (a b : List Char) :
    ∀ i j, levTable 1 1 1 a b i j ≤ levTable 1 1 1 a b i (j+1) + 1 ∧
      levTable 1 1 1 a b i j ≤ levTable 1 1 1 a b (i+1) j + 1 := by
  suffices h : ∀ n i j, i + j ≤ n →
      levTable 1 1 1 a b i j ≤ levTable 1 1 1 a b i (j+1) + 1 ∧
        levTable 1 1 1 a b i j ≤ levTable 1 1 1 a b (i+1) j + 1 from
    fun i j => h (i + j) i j le_rfl
  intro n
  induction n with
  | zero =>
      intro i j h
      have hi : i = 0 := by omega
      have hj : j = 0 := by omega
      subst hi; subst hj
      have h1 := levTable_zero_left 1 1 1 a b 0
      have h2 := levTable_zero_left 1 1 1 a b 1
      have h3 := levTable_zero_right 1 1 1 a b 1
      omega
  | succ n ih =>
      intro i j h
      constructor
      · cases i with
        | zero =>
            rw [levTable_zero_left, levTable_zero_left]
            omega
        | succ i =>
            cases j with
            | zero =>
                rw [levTable_zero_right]
                have := levTable_lower_left 1 a b (i+1) (0+1)
                omega
            | succ j =>
                have e1 := levTable_succ_succ 1 1 1 a b i j
                have e2 := levTable_succ_succ 1 1 1 a b i (j+1)
                have hIH := (ih i (j+1) (by omega)).1
                omega
      · cases j with
        | zero =>
            rw [levTable_zero_right, levTable_zero_right]
            omega
        | succ j =>
            cases i with
            | zero =>
                rw [levTable_zero_left]
                have := levTable_lower_right 1 a b (0+1) (j+1)
                omega
            | succ i =>
                have e1 := levTable_succ_succ 1 1 1 a b i j
                have e2 := levTable_succ_succ 1 1 1 a b (i+1) j
                have hIH := (ih (i+1) j (by omega)).2
                omega

/-- `mapRange f j0 n = [f j0, f (j0+1), ..., f (j0+n-1)]`, used to describe the
rows of the dynamic-programming tables. -/
def mapRange (f : Nat → Nat) (j0 : Nat) : Nat → List Nat
  | 0 => []
  | n+1 => f j0 :: mapRange f (j0+1) n

theorem mapRange_congr (f g : Nat → Nat) (hfg : ∀ t, f t = g t) :
    ∀ n j0, mapRange f j0 n = mapRange g j0 n := by
  intro n
  induction n with
  | zero => intro j0; rfl
  | succ n ih => intro j0; simp [mapRange, hfg, ih]

theorem mapRange_id_eq_range' (n j0 : Nat) :
    mapRange (fun j => j) j0 n = List.range' j0 n := by
  induction n generalizing j0 with
  | zero => rfl
  | succ n ih => simp [mapRange, List.range'_succ, ih]

theorem mapRange_getLastD (f : Nat → Nat) :
    ∀ n j0 d, (mapRange f j0 (n+1)).getLastD d = f (j0 + n) := by
  intro n
  induction n with
  | zero => intro j0 d; simp [mapRange]
  | succ n ih =>
      intro j0 d
      have : mapRange f j0 (n+2) = f j0 :: mapRange f (j0+1) (n+1) := rfl
      rw [this, List.getLastD_cons, ih (j0+1) (f j0)]
      congr 1
      omega

/-- The inner loop of `levenshtein_distance` maps row `i` of the table (from
column `j0` on) to row `i+1` (from column `j0+1` on). -/
theorem levRow_spec (insC delC subC : Nat) (a b : List Char) (i : Nat) :
    ∀ n j0, j0 + n = b.length →
      levRow insC delC subC (a.getD i ' ') (b.drop j0)
        (mapRange (levTable insC delC subC a b i) j0 (n+1))
        (levTable insC delC subC a b (i+1) j0) =
      mapRange (levTable insC delC subC a b (i+1)) (j0+1) n := by
  intro n
  induction n with
  | zero =>
      intro j0 hj0
      have hdrop : b.drop j0 = [] := by
        apply List.drop_eq_nil_of_le
        omega
      rw [hdrop]
      rfl
  | succ n ih =>
      intro j0 hj0
      have hj0lt : j0 < b.length := by omega
      have hdrop : b.drop j0 = b.getD j0 ' ' :: b.drop (j0+1) := by
        rw [List.drop_eq_getElem_cons hj0lt, List.getD_eq_getElem b ' ' hj0lt]
      have hmr : mapRange (levTable insC delC subC a b i) j0 (n+2) =
          levTable insC delC subC a b i j0 ::
            levTable insC delC subC a b i (j0+1) ::
              mapRange (levTable insC delC subC a b i) (j0+2) n := rfl
      rw [hdrop, hmr]
      show (min (levTable insC delC subC a b i (j0+1) + insC)
          (min (levTable insC delC subC a b (i+1) j0 + delC)
            (levTable insC delC subC a b i j0 +
              (if a.getD i ' ' = b.getD j0 ' ' then 0 else subC)))) ::
          levRow insC delC subC (a.getD i ' ') (b.drop (j0+1))
            (levTable insC delC subC a b i (j0+1) ::
              mapRange (levTable insC delC subC a b i) (j0+2) n) _ = _
      rw [← levTable_succ_succ]
      have htail := ih (j0+1) (by omega)
      have hmr2 : mapRange (levTable insC delC subC a b i) (j0+1) (n+1) =
          levTable insC delC subC a b i (j0+1) ::
            mapRange (levTable insC delC subC a b i) (j0+2) n := rfl
      rw [hmr2] at htail
      rw [htail]
      rfl

/-- The outer loop of `levenshtein_distance` turns row `i0` of the table into
row `a.length`. -/
theorem levRows_spec (insC delC subC : Nat) (a b : List Char) :
    ∀ rest i0, rest = a.drop i0 → i0 ≤ a.length →
      levRows insC delC subC b rest
        (mapRange (levTable insC delC subC a b i0) 0 (b.length+1)) i0 =
      mapRange (levTable insC delC subC a b a.length) 0 (b.length+1) := by
  intro rest
  induction rest with
  | nil =>
      intro i0 hdrop hle
      have : a.length ≤ i0 := by
        by_contra hlt
        push_neg at hlt
        have := List.drop_eq_nil_iff.mp hdrop.symm
        omega
      have hi0 : i0 = a.length := by omega
      subst hi0
      rfl
  | cons c1 rest ih =>
      intro i0 hdrop hle
      have hi0lt : i0 < a.length := by
        by_contra hge
        push_neg at hge
        have : a.drop i0 = [] := List.drop_eq_nil_of_le hge
        rw [this] at hdrop
        exact List.noConfusion hdrop.symm
      have hc1 : c1 = a.getD i0 ' ' := by
        have h1 : a.drop i0 = a.getD i0 ' ' :: a.drop (i0+1) := by
          rw [List.drop_eq_getElem_cons hi0lt, List.getD_eq_getElem a ' ' hi0lt]
        rw [h1] at hdrop
        exact (List.cons.injEq _ _ _ _ ▸ hdrop.symm).1.symm
      have hrest : rest = a.drop (i0+1) := by
        have h1 : a.drop i0 = a.getD i0 ' ' :: a.drop (i0+1) := by
          rw [List.drop_eq_getElem_cons hi0lt, List.getD_eq_getElem a ' ' hi0lt]
        rw [h1] at hdrop
        exact (List.cons.injEq _ _ _ _ ▸ hdrop.symm).2.symm
      show levRows insC delC subC b rest
          ((i0+1) :: levRow insC delC subC c1 b
            (mapRange (levTable insC delC subC a b i0) 0 (b.length+1)) (i0+1))
          (i0+1) = _
      have hrow := levRow_spec insC delC subC a b i0 b.length 0 (by omega)
      rw [List.drop_zero] at hrow
      have hleft : levTable insC delC subC a b (i0+1) 0 = i0+1 :=
        levTable_zero_right _ _ _ _ _ _
      rw [hleft] at hrow
      rw [hc1, hrow]
      have hnext : (i0+1) :: mapRange (levTable insC delC subC a b (i0+1)) 1 b.length =
          mapRange (levTable insC delC subC a b (i0+1)) 0 (b.length+1) := by
        have h0 : levTable insC delC subC a b (i0+1) 0 = i0+1 :=
          levTable_zero_right _ _ _ _ _ _
        show (i0+1) :: mapRange (levTable insC delC subC a b (i0+1)) 1 b.length =
          levTable insC delC subC a b (i0+1) 0 ::
            mapRange (levTable insC delC subC a b (i0+1)) 1 b.length
        rw [h0]
      rw [hnext]
      exact ih (i0+1) hrest (by omega)

/-- When no swap happens and `word2` is non-empty, `levenshtein_distance` is the
bottom-right entry of the table. -/
theorem levenshtein_distance_eq_levTable_of_le (E : EditDistanceCalculator)
    (a b : List Char) (hlen : b.length ≤ a.length) :
    levenshtein_distance E a b =
      levTable E.insertion_cost E.deletion_cost E.substitution_cost a b
        a.length b.length := by
  rcases Nat.eq_zero_or_pos b.length with hb | hb
  · rw [levenshtein_distance]
    rw [if_neg (by omega), if_pos hb, hb, levTable_zero_right]
  · rw [levenshtein_distance, if_neg (by omega), if_neg (by omega)]
    have hinit : List.range (b.length + 1) =
        mapRange (levTable E.insertion_cost E.deletion_cost E.substitution_cost a b 0)
          0 (b.length + 1) := by
      rw [mapRange_congr _ (fun j => j)
        (fun t => levTable_zero_left _ _ _ _ _ t),
        mapRange_id_eq_range', List.range_eq_range']
    rw [hinit, levRows_spec _ _ _ a b a 0 rfl (by omega)]
    have := mapRange_getLastD
      (levTable E.insertion_cost E.deletion_cost E.substitution_cost a b a.length)
      b.length 0 0
    rw [this, Nat.zero_add]

/-- With equal insertion and deletion costs (in particular with the default unit
costs), `levenshtein_distance`, including its argument swap, computes the
bottom-right entry of the table. -/
theorem levenshtein_distance_eq_levTable (E : EditDistanceCalculator)
    (hID : E.insertion_cost = E.deletion_cost) (a b : List Char) :
    levenshtein_distance E a b =
      levTable E.insertion_cost E.deletion_cost E.substitution_cost a b
        a.length b.length := by
  by_cases h : a.length < b.length
  · rw [levenshtein_distance, if_pos h,
      levenshtein_distance_eq_levTable_of_le E b a (by omega),
      levTable_symm, hID]
  · exact levenshtein_distance_eq_levTable_of_le E a b (by omega)

/-! ### Properties of the Damerau–Levenshtein table -/

theorem dlTable_zero_left (insC delC : Nat) (a b : List Char) (j : Nat) :
    dlTable insC delC a b 0 j = j := by
  simp [dlTable]

theorem dlTable_zero_right (insC delC : Nat) (a b : List Char) (i : Nat) :
    dlTable insC delC a b i 0 = i := by
  cases i <;> simp [dlTable]

theorem dlTable_succ_succ (insC delC : Nat) (a b : List Char) (i j : Nat) :
    dlTable insC delC a b (i+1) (j+1) =
      min (dlTable insC delC a b i j + (if a.getD i ' ' = b.getD j ' ' then 0 else 1))
        (min (dlTable insC delC a b (i+1) j + insC)
          (min (dlTable insC delC a b i (j+1) + delC)
            ((if 1 ≤ lastRow a (b.getD j ' ') i ∧ 1 ≤ lastRow b (a.getD i ' ') j then
                dlTable insC delC a b (lastRow a (b.getD j ' ') i - 1)
                  (lastRow b (a.getD i ' ') j - 1)
              else a.length + b.length)
              + (i + 1 - lastRow a (b.getD j ' ') i - 1) + 1
              + (j + 1 - lastRow b (a.getD i ' ') j - 1)))) := by
  simp [dlTable]

/-- The Damerau–Levenshtein table is symmetric, with the roles of the insertion
and deletion costs exchanged. -/
theorem dlTable_symm (insC delC : Nat) (a b : List Char) (i j : Nat) :
    dlTable insC delC a b i j = dlTable delC insC b a j i := by
  suffices h : ∀ n i j, i + j ≤ n →
      dlTable insC delC a b i j = dlTable delC insC b a j i from
    h (i + j) i j le_rfl
  intro n
  induction n with
  | zero =>
      intro i j h
      have hi : i = 0 := by omega
      have hj : j = 0 := by omega
      subst hi; subst hj
      simp [dlTable]
  | succ n ih =>
      intro i j h
      cases i with
      | zero => cases j <;> simp [dlTable]
      | succ i =>
          cases j with
          | zero => simp [dlTable]
          | succ j =>
              rw [dlTable_succ_succ, dlTable_succ_succ]
              have hka := lastRow_le a (b.getD j ' ') i
              have hlb := lastRow_le b (a.getD i ' ') j
              have h1 := ih i j (by omega)
              have h2 := ih (i+1) j (by omega)
              have h3 := ih i (j+1) (by omega)
              have h4 := ih (lastRow a (b.getD j ' ') i - 1)
                (lastRow b (a.getD i ' ') j - 1) (by omega)
              have hc : (if b.getD j ' ' = a.getD i ' ' then (0:Nat) else 1) =
                  (if a.getD i ' ' = b.getD j ' ' then 0 else 1) := by
                rcases eq_or_ne (a.getD i ' ') (b.getD j ' ') with hab | hab
                · rw [if_pos hab.symm, if_pos hab]
                · rw [if_neg (fun hh => hab hh.symm), if_neg hab]
              have ht : (if 1 ≤ lastRow b (a.getD i ' ') j ∧
                    1 ≤ lastRow a (b.getD j ' ') i then
                  dlTable delC insC b a (lastRow b (a.getD i ' ') j - 1)
                    (lastRow a (b.getD j ' ') i - 1)
                else b.length + a.length) =
                  (if 1 ≤ lastRow a (b.getD j ' ') i ∧
                      1 ≤ lastRow b (a.getD i ' ') j then
                    dlTable insC delC a b (lastRow a (b.getD j ' ') i - 1)
                      (lastRow b (a.getD i ' ') j - 1)
                  else a.length + b.length) := by
                by_cases hcond : 1 ≤ lastRow a (b.getD j ' ') i ∧
                    1 ≤ lastRow b (a.getD i ' ') j
                · rw [if_pos ⟨hcond.2, hcond.1⟩, if_pos hcond, ← h4]
                · rw [if_neg (fun hh => hcond ⟨hh.2, hh.1⟩), if_neg hcond,
                    Nat.add_comm]
              rw [hc, ht, h1, h2, h3]
              omega

/-- On the diagonal with both words the same the table is `0`. -/
theorem dlTable_diag (insC delC : Nat) (a : List Char) (i : Nat) :
    dlTable insC delC a a i i = 0 := by
  induction i with
  | zero => simp [dlTable]
  | succ i ih =>
      rw [dlTable_succ_succ, if_pos rfl, ih]
      omega

/-- Upper bound `i + j`, via the substitution branch alone (whose cost is the
hard-coded `1`), so it holds for any insertion and deletion costs. -/
theorem dlTable_le_add (insC delC : Nat) (a b : List Char) :
    ∀ i j, dlTable insC delC a b i j ≤ i + j := by
  intro i
  induction i with
  | zero => intro j; simp [dlTable_zero_left]
  | succ i ih =>
      intro j
      cases j with
      | zero => simp [dlTable_zero_right]
      | succ j =>
          have h1 := ih j
          have hc : (if a.getD i ' ' = b.getD j ' ' then (0:Nat) else 1) ≤ 1 := by
            split <;> omega
          rw [dlTable_succ_succ]
          omega

/-- Lower bound with unit insertion and deletion costs: `i ≤ dlTable i j + j`
whenever `i` and `j` are within the two words. -/
theorem dlTable_lower_left (a b : List Char) :
    ∀ i j, i ≤ a.length → j ≤ b.length → i ≤ dlTable 1 1 a b i j + j := by
  suffices h : ∀ n i j, i + j ≤ n → i ≤ a.length → j ≤ b.length →
      i ≤ dlTable 1 1 a b i j + j from
    fun i j hi hj => h (i + j) i j le_rfl hi hj
  intro n
  induction n with
  | zero => intro i j h _ _; omega
  | succ n ih =>
      intro i j h hia hjb
      cases i with
      | zero => omega
      | succ i =>
          cases j with
          | zero => rw [dlTable_zero_right]
          | succ j =>
              have hka := lastRow_le a (b.getD j ' ') i
              have hlb := lastRow_le b (a.getD i ' ') j
              have h1 := ih i j (by omega) (by omega) (by omega)
              have h2 := ih (i+1) j (by omega) (by omega) (by omega)
              have h3 := ih i (j+1) (by omega) (by omega) (by omega)
              have h4 := ih (lastRow a (b.getD j ' ') i - 1)
                (lastRow b (a.getD i ' ') j - 1) (by omega) (by omega) (by omega)
              rw [dlTable_succ_succ]
              by_cases hcond : 1 ≤ lastRow a (b.getD j ' ') i ∧
                  1 ≤ lastRow b (a.getD i ' ') j
              · rw [if_pos hcond]
                omega
              · rw [if_neg hcond]
                omega

/-- Lower bound with unit insertion and deletion costs: `j ≤ dlTable i j + i`
whenever `i` and `j` are within the two words. -/
theorem dlTable_lower_right (a b : List Char) :
    ∀ i j, i ≤ a.length → j ≤ b.length → j ≤ dlTable 1 1 a b i j + i := by
  intro i j hi hj
  rw [dlTable_symm]
  exact dlTable_lower_left b a j i hj hi

/-! ### Keyboard-weighted and phonetic distances -/

/-- The QWERTY adjacency table built by `_build_keyboard_layout`. -/
def keyboard_layout : List (Char × List Char) :=
  [('q', ['w', 'a']), ('w', ['q', 'e', 's']), ('e', ['w', 'r', 'd']),
   ('r', ['e', 't', 'f']), ('t', ['r', 'y', 'g']), ('y', ['t', 'u', 'h']),
   ('u', ['y', 'i', 'j']), ('i', ['u', 'o', 'k']), ('o', ['i', 'p', 'l']),
   ('p', ['o', 'l']), ('a', ['q', 's', 'z']), ('s', ['a', 'w', 'd', 'x']),
   ('d', ['s', 'e', 'f', 'c']), ('f', ['d', 'r', 'g', 'v']),
   ('g', ['f', 't', 'h', 'b']), ('h', ['g', 'y', 'j', 'n']),
   ('j', ['h', 'u', 'k', 'm']), ('k', ['j', 'i', 'l']), ('l', ['k', 'o', 'p']),
   ('z', ['a', 's', 'x']), ('x', ['z', 's', 'd', 'c']), ('c', ['x', 'd', 'f', 'v']),
   ('v', ['c', 'f', 'g', 'b']), ('b', ['v', 'g', 'h', 'n']),
   ('n', ['b', 'h', 'j', 'm']), ('m', ['n', 'j', 'k'])]

/-- `c2 in self.keyboard_layout.get(c1, set())`. -/
def keyboardAdjacent (c1 c2 : Char) : Bool :=
  (alistGet keyboard_layout c1 []).contains c2

/-- Inner loop of `weighted_edit_distance` (rational-valued; adjacent keys cost
`0.5`, equal characters `0`, other substitutions the configured cost). -/
def weightedRow (subC insC delC : ℚ) (c1 : Char) :
    List Char → List ℚ → ℚ → List ℚ
  | c2 :: bs, p0 :: p1 :: ps, left =>
      min (p1 + insC) (min (left + delC)
          (p0 + (if c1 = c2 then 0 else if keyboardAdjacent c1 c2 then 1/2 else subC))) ::
        weightedRow subC insC delC c1 bs (p1 :: ps)
          (min (p1 + insC) (min (left + delC)
            (p0 + (if c1 = c2 then 0 else if keyboardAdjacent c1 c2 then 1/2 else subC))))
  | _, _, _ => []

/-- Outer loop of `weighted_edit_distance`. -/
def weightedRows (subC insC delC : ℚ) (b : List Char) :
    List Char → List ℚ → ℚ → List ℚ
  | [], prev, _ => prev
  | c1 :: rest, prev, i =>
      weightedRows subC insC delC b rest
        ((i+1) :: weightedRow subC insC delC c1 b prev (i+1)) (i+1)

/-- `EditDistanceCalculator.weighted_edit_distance`. -/
def weighted_edit_distance (E : EditDistanceCalculator) (word1 word2 : List Char) :
    ℚ :=
  if word1.length < word2.length then weighted_edit_distance E word2 word1
  else if word2.length = 0 then (word1.length : ℚ)
  else
    (weightedRows (E.substitution_cost : ℚ) (E.insertion_cost : ℚ)
      (E.deletion_cost : ℚ) word2 word1
      ((List.range (word2.length + 1)).map (fun n => (n : ℚ))) 0).getLastD 0
termination_by word2.length

/-- Does `pat` occur at the start of the list? -/
def beginsWith : List Char → List Char → Bool
  | [], _ => true
  | _ :: _, [] => false
  | p :: ps, h :: hs => p = h && beginsWith ps hs

/-- Python's `str.replace`: replace every non-overlapping occurrence of `pat`
(non-empty in all uses here) by `rep`, scanning left to right. -/
def replaceAll (pat rep : List Char) : List Char → List Char
  | [] => []
  | c :: t =>
      if pat ≠ [] ∧ beginsWith pat (c :: t) then
        rep ++ replaceAll pat rep ((c :: t).drop pat.length)
      else c :: replaceAll pat rep t
termination_by hay => hay.length
decreasing_by
  · rename_i h
    have hlen : 1 ≤ pat.length := List.length_pos.mpr h.1
    simp only [List.length_drop, List.length_cons]
    omega
  · simp

/-- The fixed, ordered pattern list of `phonetic_distance` (a Python `dict`,
iterated in insertion order). -/
def phonetic_map : List (String × String) :=
  [("ph", "f"), ("tion", "shun"), ("sion", "zhun"), ("ough", "uff"),
   ("augh", "aff"), ("eigh", "ay"), ("ight", "ite"), ("kn", "n"),
   ("wr", "r"), ("mb", "m"), ("bt", "t")]

/-- `normalize_phonetic` inside `phonetic_distance`. -/
def normalize_phonetic (word : List Char) : List Char :=
  phonetic_map.foldl (fun w pr => replaceAll pr.1.data pr.2.data w) word

/-- `EditDistanceCalculator.phonetic_distance`: lowercase both words, normalize
them, then take the (configured-cost) Levenshtein distance. -/
def phonetic_distance (E : EditDistanceCalculator) (word1 word2 : List Char) :
    Nat :=
  levenshtein_distance E (normalize_phonetic (word1.map Char.toLower))
    (normalize_phonetic (word2.map Char.toLower))

/-- `EditDistanceCalculator.get_candidates_by_distance`: filter the vocabulary by
the length difference, then by the chosen edit distance against `max_distance`;
score survivors by `0.5*d + 0.3*wd + 0.2*pd`; stable-sort ascending by that
score; keep the first `max_candidates`.  The vocabulary list records the
iteration order of the Python `set`. -/
def get_candidates_by_distance (E : EditDistanceCalculator) (word : String)
    (vocabulary : List String) (max_candidates : Nat) : List (String × ℚ) :=
  (stableSort (fun x y => x.2 ≤ y.2)
    (vocabulary.filterMap (fun v =>
      if E.max_distance < ((word.length : Int) - (v.length : Int)).natAbs then
        none
      else
        if (if E.allow_transpose then
              damerau_levenshtein_distance E word.data v.data
            else levenshtein_distance E word.data v.data) ≤ E.max_distance then
          some (v, (1/2 : ℚ) *
              ((if E.allow_transpose then
                  damerau_levenshtein_distance E word.data v.data
                else levenshtein_distance E word.data v.data : Nat) : ℚ) +
            (3/10) * weighted_edit_distance E word.data v.data +
            (1/5) * (phonetic_distance E word.data v.data : ℚ))
        else none))).take max_candidates

/-- The calculator with the source's default configuration. -/
def defaultEditCalc : EditDistanceCalculator := {}

/-- C7: with the default configuration (unit operation costs), both
`levenshtein_distance` and `damerau_levenshtein_distance` are symmetric, vanish
on equal arguments, and are bounded by the sum of the two lengths. -/
theorem C7_edit_distance_symm_diag_bound (a b : List Char) :
    levenshtein_distance defaultEditCalc a b =
        levenshtein_distance defaultEditCalc b a ∧
      levenshtein_distance defaultEditCalc a a = 0 ∧
      levenshtein_distance defaultEditCalc a b ≤ a.length + b.length ∧
      damerau_levenshtein_distance defaultEditCalc a b =
        damerau_levenshtein_distance defaultEditCalc b a ∧
      damerau_levenshtein_distance defaultEditCalc a a = 0 ∧
      damerau_levenshtein_distance defaultEditCalc a b ≤ a.length + b.length := by
  have hID : defaultEditCalc.insertion_cost = defaultEditCalc.deletion_cost := rfl
  refine ⟨?_, ?_, ?_, ?_, ?_, ?_⟩
  · rw [levenshtein_distance_eq_levTable _ hID, levenshtein_distance_eq_levTable _ hID]
    exact levTable_symm _ _ _ _ _ _ _
  · rw [levenshtein_distance_eq_levTable _ hID]
    exact levTable_diag _ _ _ _ _
  · rw [levenshtein_distance_eq_levTable _ hID]
    exact levTable_le_add _ _ _ _ _
  · show dlTable 1 1 a b a.length b.length = dlTable 1 1 b a b.length a.length
    exact dlTable_symm _ _ _ _ _ _
  · show dlTable 1 1 a a a.length a.length = 0
    exact dlTable_diag _ _ _ _
  · show dlTable 1 1 a b a.length b.length ≤ a.length + b.length
    exact dlTable_le_add _ _ _ _ _ _

/-! ### `get_edit_operations` (the back-trace) -/

/-- The three kinds of operation record appended by `get_edit_operations`
(`substitute c -> d at position p`, `delete c at position p`,
`insert c at position p`). -/
inductive EditOp where
  | substituteOp (c d : Char) (pos : Nat)
  | deleteOp (c : Char) (pos : Nat)
  | insertOp (c : Char) (pos : Nat)
deriving DecidableEq

/-- The full table `dp` filled by `get_edit_operations` (unit costs are
hard-coded there; when the characters agree the diagonal value is copied,
otherwise `1 + min(deletion, insertion, substitution)` in the source's
order). -/
def opsTable (a b : List Char) : Nat → Nat → Nat
  | 0, j => j
  | i+1, 0 => i+1
  | i+1, j+1 =>
      if a.getD i ' ' = b.getD j ' ' then opsTable a b i j
      else 1 + min (opsTable a b i (j+1)) (min (opsTable a b (i+1) j) (opsTable a b i j))

theorem opsTable_zero_left (a b : List Char) (j : Nat) : opsTable a b 0 j = j := by
  simp [opsTable]

theorem opsTable_zero_right (a b : List Char) (i : Nat) : opsTable a b i 0 = i := by
  cases i <;> simp [opsTable]

theorem opsTable_succ_succ (a b : List Char) (i j : Nat) :
    opsTable a b (i+1) (j+1) =
      if a.getD i ' ' = b.getD j ' ' then opsTable a b i j
      else 1 + min (opsTable a b i (j+1)) (min (opsTable a b (i+1) j) (opsTable a b i j)) := by
  simp [opsTable]

/-- The `dp` table of `get_edit_operations` agrees with the unit-cost
Levenshtein table: when the characters agree, the diagonal copy is already the
minimum of the three options. -/
theorem opsTable_eq_levTable (a b : List Char) :
    ∀ i j, opsTable a b i j = levTable 1 1 1 a b i j := by
  suffices h : ∀ n i j, i + j ≤ n → opsTable a b i j = levTable 1 1 1 a b i j from
    fun i j => h (i + j) i j le_rfl
  intro n
  induction n with
  | zero =>
      intro i j h
      have hi : i = 0 := by omega
      have hj : j = 0 := by omega
      subst hi; subst hj
      simp [opsTable, levTable]
  | succ n ih =>
      intro i j h
      cases i with
      | zero => rw [opsTable_zero_left, levTable_zero_left]
      | succ i =>
          cases j with
          | zero => rw [opsTable_zero_right, levTable_zero_right]
          | succ j =>
              have h1 := ih i (j+1) (by omega)
              have h2 := ih (i+1) j (by omega)
              have h3 := ih i j (by omega)
              rw [opsTable_succ_succ, levTable_succ_succ, h1, h2, h3]
              rcases eq_or_ne (a.getD i ' ') (b.getD j ' ') with hc | hc
              · rw [if_pos hc, if_pos hc]
                have hA := (levTable_neighbor a b i j).1
                have hB := (levTable_neighbor a b i j).2
                omega
              · rw [if_neg hc, if_neg hc]
                omega

/-- The back-trace loop of `get_edit_operations`, producing the operations in
the order they are appended (walking from `(i, j)` back towards `(0, 0)`); the
branches are tried in the source's order (match, substitute, delete, insert).
With a correctly filled table one of the four branches always applies while
`i > 0 or j > 0` (see the proofs below); the final `[]` is the unreachable fall
through on which the source's `while` loop would fail to make progress. -/
def backtraceOps (a b : List Char) (i j : Nat) : List EditOp :=
  if h0 : 0 < i ∨ 0 < j then
    if h1 : 0 < i ∧ 0 < j ∧ a.getD (i-1) ' ' = b.getD (j-1) ' ' then
      backtraceOps a b (i-1) (j-1)
    else if h2 : 0 < i ∧ 0 < j ∧ opsTable a b i j = opsTable a b (i-1) (j-1) + 1 then
      EditOp.substituteOp (a.getD (i-1) ' ') (b.getD (j-1) ' ') (i-1) ::
        backtraceOps a b (i-1) (j-1)
    else if h3 : 0 < i ∧ opsTable a b i j = opsTable a b (i-1) j + 1 then
      EditOp.deleteOp (a.getD (i-1) ' ') (i-1) :: backtraceOps a b (i-1) j
    else if h4 : 0 < j ∧ opsTable a b i j = opsTable a b i (j-1) + 1 then
      EditOp.insertOp (b.getD (j-1) ' ') i :: backtraceOps a b i (j-1)
    else []
  else []
termination_by i + j
decreasing_by
  · omega
  · omega
  · omega
  · omega

/-- `EditDistanceCalculator.get_edit_operations`: run the back-trace from the
bottom-right corner and reverse the collected operations. -/
def get_edit_operations (a b : List Char) : List EditOp :=
  (backtraceOps a b a.length b.length).reverse

/-- Guard coverage for the back-trace: while `i > 0 or j > 0`, one of the four
branches of the loop applies (so the source's `while` loop always makes
progress). -/
theorem backtraceOps_guard (a b : List Char) (i j : Nat) (h0 : 0 < i ∨ 0 < j)
    (h1 : ¬(0 < i ∧ 0 < j ∧ a.getD (i-1) ' ' = b.getD (j-1) ' '))
    (h2 : ¬(0 < i ∧ 0 < j ∧ opsTable a b i j = opsTable a b (i-1) (j-1) + 1))
    (h3 : ¬(0 < i ∧ opsTable a b i j = opsTable a b (i-1) j + 1))
    (h4 : ¬(0 < j ∧ opsTable a b i j = opsTable a b i (j-1) + 1)) : False := by
  cases i with
  | zero =>
      have hj : 0 < j := by omega
      refine h4 ⟨hj, ?_⟩
      rw [opsTable_zero_left, opsTable_zero_left]
      omega
  | succ i =>
      cases j with
      | zero =>
          refine h3 ⟨by omega, ?_⟩
          rw [opsTable_zero_right, opsTable_zero_right]
          omega
      | succ j =>
          simp only [Nat.add_sub_cancel] at h1 h2 h3 h4
          rcases eq_or_ne (a.getD i ' ') (b.getD j ' ') with hc | hc
          · exact h1 ⟨by omega, by omega, hc⟩
          · have he := opsTable_succ_succ a b i j
            rw [if_neg hc] at he
            have h2' : ¬(opsTable a b (i+1) (j+1) = opsTable a b i j + 1) :=
              fun hh => h2 ⟨by omega, by omega, hh⟩
            have h3' : ¬(opsTable a b (i+1) (j+1) = opsTable a b i (j+1) + 1) :=
              fun hh => h3 ⟨by omega, hh⟩
            have h4' : ¬(opsTable a b (i+1) (j+1) = opsTable a b (i+1) j + 1) :=
              fun hh => h4 ⟨by omega, hh⟩
            omega

/-- The number of operations collected by the back-trace from `(i, j)` is
exactly the table entry `dp[i][j]`. -/
theorem backtraceOps_length (a b : List Char) :
    ∀ i j, (backtraceOps a b i j).length = opsTable a b i j := by
  suffices h : ∀ n i j, i + j ≤ n →
      (backtraceOps a b i j).length = opsTable a b i j from
    fun i j => h (i + j) i j le_rfl
  intro n
  induction n with
  | zero =>
      intro i j h
      have hi : i = 0 := by omega
      have hj : j = 0 := by omega
      subst hi; subst hj
      rw [backtraceOps]
      simp [opsTable_zero_left]
  | succ n ih =>
      intro i j h
      rw [backtraceOps]
      split_ifs with h0 h1 h2 h3 h4
      · -- match
        obtain ⟨hi, hj, hc⟩ := h1
        obtain ⟨i', rfl⟩ : ∃ i', i = i' + 1 := ⟨i - 1, by omega⟩
        obtain ⟨j', rfl⟩ : ∃ j', j = j' + 1 := ⟨j - 1, by omega⟩
        simp only [Nat.add_sub_cancel] at hc ⊢
        rw [ih i' j' (by omega), opsTable_succ_succ, if_pos hc]
      · -- substitute
        obtain ⟨hi, hj, hd⟩ := h2
        rw [List.length_cons, ih (i-1) (j-1) (by omega), hd]
      · -- delete
        obtain ⟨hi, hd⟩ := h3
        rw [List.length_cons, ih (i-1) j (by omega), hd]
      · -- insert
        obtain ⟨hj, hd⟩ := h4
        rw [List.length_cons, ih i (j-1) (by omega), hd]
      · exact absurd (backtraceOps_guard a b i j h0 h1 h2 h3 h4) (fun hf => hf)
      · -- i = 0 and j = 0
        have hi : i = 0 := by omega
        have hj : j = 0 := by omega
        subst hi; subst hj
        simp [opsTable_zero_left]

/-- Apply a single operation to a string; the position refers to the string it
is applied to. -/
def applyEditOp (s : List Char) : EditOp → List Char
  | EditOp.substituteOp _ d p => s.set p d
  | EditOp.deleteOp _ p => s.eraseIdx p
  | EditOp.insertOp c p => s.insertIdx p c

/-- Apply an edit trace to `s`.  All the positions of a trace refer to the
original string, so the operations must be applied from the highest position
down; `get_edit_operations` returns the trace sorted by ascending position,
hence the right fold (the rightmost operation is applied first). -/
def applyEditOps (ops : List EditOp) (s : List Char) : List Char :=
  ops.foldr (fun op t => applyEditOp t op) s

theorem set_append_of_lt (u w : List Char) (p : Nat) (d : Char) (h : p < u.length) :
    (u ++ w).set p d = u.set p d ++ w := by
  induction u generalizing p with
  | nil => simp at h
  | cons x xs ihx =>
      cases p with
      | zero => simp
      | succ p =>
          simp only [List.cons_append, List.set_cons_succ]
          rw [ihx p (by simpa using h)]

theorem eraseIdx_append_of_lt (u w : List Char) (p : Nat) (h : p < u.length) :
    (u ++ w).eraseIdx p = u.eraseIdx p ++ w := by
  induction u generalizing p with
  | nil => simp at h
  | cons x xs ihx =>
      cases p with
      | zero => simp
      | succ p =>
          simp only [List.cons_append, List.eraseIdx_cons_succ]
          rw [ihx p (by simpa using h)]

theorem insertIdx_append_of_le (u w : List Char) (p : Nat) (c : Char)
    (h : p ≤ u.length) :
    (u ++ w).insertIdx p c = u.insertIdx p c ++ w := by
  induction u generalizing p with
  | nil =>
      have hp : p = 0 := by simpa using h
      subst hp
      simp
  | cons x xs ihx =>
      cases p with
      | zero => simp
      | succ p =>
          simp only [List.cons_append, List.insertIdx_succ_cons]
          rw [ihx p (by simpa using h)]

theorem set_append_singleton (u : List Char) (x d : Char) (w : List Char) :
    (u ++ x :: w).set u.length d = u ++ d :: w := by
  induction u with
  | nil => simp
  | cons y ys ihy => simp [ihy]

theorem set_append_singleton_at (u : List Char) (x d : Char) (w : List Char)
    (p : Nat) (hp : p = u.length) : (u ++ x :: w).set p d = u ++ d :: w := by
  subst hp
  exact set_append_singleton u x d w

theorem eraseIdx_append_singleton (u : List Char) (x : Char) (w : List Char) :
    (u ++ x :: w).eraseIdx u.length = u ++ w := by
  induction u with
  | nil => simp
  | cons y ys ihy => simp [ihy]

theorem eraseIdx_append_singleton_at (u : List Char) (x : Char) (w : List Char)
    (p : Nat) (hp : p = u.length) : (u ++ x :: w).eraseIdx p = u ++ w := by
  subst hp
  exact eraseIdx_append_singleton u x w

theorem insertIdx_self_at (l : List Char) (c : Char) (p : Nat)
    (hp : p = l.length) : l.insertIdx p c = l ++ [c] := by
  subst hp
  exact List.insertIdx_length_self l c

/-- Whether an operation stays inside a string of length `n`: substitutions and
deletions address an existing position, insertions may also append at the end. -/
def opFits : EditOp → Nat → Prop
  | EditOp.substituteOp _ _ p, n => p < n
  | EditOp.deleteOp _ p, n => p < n
  | EditOp.insertOp _ p, n => p ≤ n

/-- Length of the string after applying an operation to a string of length `n`. -/
def opNewLen : EditOp → Nat → Nat
  | EditOp.substituteOp _ _ _, n => n
  | EditOp.deleteOp _ _, n => n - 1
  | EditOp.insertOp _ _, n => n + 1

/-- A trace fits a string of length `n` if each operation, applied in order,
stays inside the evolving string. -/
def opsFit : List EditOp → Nat → Prop
  | [], _ => True
  | op :: rest, n => opFits op n ∧ opsFit rest (opNewLen op n)

theorem opFits_mono (op : EditOp) (m n : Nat) (h : m ≤ n) (hf : opFits op m) :
    opFits op n := by
  cases op <;> simp only [opFits] at hf ⊢ <;> omega

theorem opNewLen_mono (op : EditOp) (m n : Nat) (h : m ≤ n) :
    opNewLen op m ≤ opNewLen op n := by
  cases op <;> simp only [opNewLen] <;> omega

theorem opsFit_mono (ops : List EditOp) :
    ∀ m n, m ≤ n → opsFit ops m → opsFit ops n := by
  induction ops with
  | nil => intro m n h hf; trivial
  | cons op rest ih =>
      intro m n h hf
      exact ⟨opFits_mono op m n h hf.1,
        ih (opNewLen op m) (opNewLen op n) (opNewLen_mono op m n h) hf.2⟩

theorem applyEditOp_length (u : List Char) (op : EditOp) (h : opFits op u.length) :
    (applyEditOp u op).length = opNewLen op u.length := by
  cases op with
  | substituteOp c d p => simp [applyEditOp, opNewLen]
  | deleteOp c p =>
      simp only [applyEditOp, opNewLen, List.length_eraseIdx]
      simp only [opFits] at h
      simp [h]
  | insertOp c p =>
      simp only [applyEditOp, opNewLen]
      exact List.length_insertIdx p u (by exact h)

theorem applyEditOp_append (u w : List Char) (op : EditOp)
    (h : opFits op u.length) :
    applyEditOp (u ++ w) op = applyEditOp u op ++ w := by
  cases op with
  | substituteOp c d p => exact set_append_of_lt u w p d h
  | deleteOp c p => exact eraseIdx_append_of_lt u w p h
  | insertOp c p => exact insertIdx_append_of_le u w p c h

/-- Frame rule: a trace whose operations all fit inside `u` leaves an appended
suffix `w` untouched. -/
theorem foldl_applyEditOp_append (ops : List EditOp) :
    ∀ u w : List Char, opsFit ops u.length →
      List.foldl applyEditOp (u ++ w) ops = List.foldl applyEditOp u ops ++ w := by
  induction ops with
  | nil => intro u w _; rfl
  | cons op rest ih =>
      intro u w hf
      simp only [List.foldl_cons]
      rw [applyEditOp_append u w op hf.1]
      refine ih (applyEditOp u op) w ?_
      rw [applyEditOp_length u op hf.1]
      exact hf.2

theorem take_succ_getD (l : List Char) (n : Nat) (h : n < l.length) :
    l.take (n+1) = l.take n ++ [l.getD n ' '] := by
  rw [List.getD_eq_getElem l ' ' h, List.take_succ]
  congr 1
  rw [List.getElem?_eq_getElem h]
  rfl

/-- All operations collected from `(i, j)` fit a string of length `i`. -/
theorem backtraceOps_fit (a b : List Char) :
    ∀ i j, opsFit (backtraceOps a b i j) i := by
  suffices h : ∀ n i j, i + j ≤ n → opsFit (backtraceOps a b i j) i from
    fun i j => h (i + j) i j le_rfl
  intro n
  induction n with
  | zero =>
      intro i j h
      have hi : i = 0 := by omega
      have hj : j = 0 := by omega
      subst hi; subst hj
      rw [backtraceOps]
      simp [opsFit]
  | succ n ih =>
      intro i j h
      rw [backtraceOps]
      split_ifs with h0 h1 h2 h3 h4
      · exact opsFit_mono _ (i-1) i (by omega) (ih (i-1) (j-1) (by omega))
      · refine ⟨by simp only [opFits]; omega, ?_⟩
        exact opsFit_mono _ (i-1) i (by omega) (ih (i-1) (j-1) (by omega))
      · refine ⟨by simp only [opFits]; omega, ?_⟩
        exact ih (i-1) j (by omega)
      · refine ⟨by simp only [opFits]; omega, ?_⟩
        exact opsFit_mono _ i (i+1) (by omega) (ih i (j-1) (by omega))
      · exact absurd (backtraceOps_guard a b i j h0 h1 h2 h3 h4) (fun hf => hf)
      · trivial

/-- Applying (from the highest position down) the operations collected from
`(i, j)` turns the length-`i` prefix of `a` into the length-`j` prefix of `b`. -/
theorem backtrace_apply (a b : List Char) :
    ∀ i j, i ≤ a.length → j ≤ b.length →
      List.foldl applyEditOp (a.take i) (backtraceOps a b i j) = b.take j := by
  suffices h : ∀ n i j, i + j ≤ n → i ≤ a.length → j ≤ b.length →
      List.foldl applyEditOp (a.take i) (backtraceOps a b i j) = b.take j from
    fun i j => h (i + j) i j le_rfl
  intro n
  induction n with
  | zero =>
      intro i j h hia hjb
      have hi : i = 0 := by omega
      have hj : j = 0 := by omega
      subst hi; subst hj
      rw [backtraceOps]
      simp
  | succ n ih =>
      intro i j h hia hjb
      have hulen : ∀ m, m ≤ a.length → (a.take m).length = m := by
        intro m hm
        rw [List.length_take]
        omega
      rw [backtraceOps]
      split_ifs with h0 h1 h2 h3 h4
      · -- match
        obtain ⟨hi, hj, hc⟩ := h1
        have htake : a.take i = a.take (i-1) ++ [a.getD (i-1) ' '] := by
          have := take_succ_getD a (i-1) (by omega)
          rw [show i - 1 + 1 = i by omega] at this
          exact this
        have hbtake : b.take j = b.take (j-1) ++ [b.getD (j-1) ' '] := by
          have := take_succ_getD b (j-1) (by omega)
          rw [show j - 1 + 1 = j by omega] at this
          exact this
        rw [htake, foldl_applyEditOp_append _ _ _
            (by rw [hulen (i-1) (by omega)]; exact backtraceOps_fit a b (i-1) (j-1)),
          ih (i-1) (j-1) (by omega) (by omega) (by omega), hbtake, hc]
      · -- substitute
        obtain ⟨hi, hj, hd⟩ := h2
        have htake : a.take i = a.take (i-1) ++ a.getD (i-1) ' ' :: [] := by
          have := take_succ_getD a (i-1) (by omega)
          rw [show i - 1 + 1 = i by omega] at this
          exact this
        have hbtake : b.take j = b.take (j-1) ++ [b.getD (j-1) ' '] := by
          have := take_succ_getD b (j-1) (by omega)
          rw [show j - 1 + 1 = j by omega] at this
          exact this
        simp only [List.foldl_cons]
        have hset : applyEditOp (a.take i)
            (EditOp.substituteOp (a.getD (i-1) ' ') (b.getD (j-1) ' ') (i-1)) =
            a.take (i-1) ++ [b.getD (j-1) ' '] := by
          show (a.take i).set (i-1) (b.getD (j-1) ' ') = _
          rw [htake]
          exact set_append_singleton_at _ _ _ _ _ (hulen (i-1) (by omega)).symm
        rw [hset, foldl_applyEditOp_append _ _ _
            (by rw [hulen (i-1) (by omega)]; exact backtraceOps_fit a b (i-1) (j-1)),
          ih (i-1) (j-1) (by omega) (by omega) (by omega), hbtake]
      · -- delete
        obtain ⟨hi, hd⟩ := h3
        have htake : a.take i = a.take (i-1) ++ a.getD (i-1) ' ' :: [] := by
          have := take_succ_getD a (i-1) (by omega)
          rw [show i - 1 + 1 = i by omega] at this
          exact this
        simp only [List.foldl_cons]
        have herase : applyEditOp (a.take i)
            (EditOp.deleteOp (a.getD (i-1) ' ') (i-1)) = a.take (i-1) := by
          show (a.take i).eraseIdx (i-1) = _
          rw [htake]
          rw [eraseIdx_append_singleton_at _ _ _ _ (hulen (i-1) (by omega)).symm]
          simp
        rw [herase]
        exact ih (i-1) j (by omega) (by omega) (by omega)
      · -- insert
        obtain ⟨hj, hd⟩ := h4
        have hbtake : b.take j = b.take (j-1) ++ [b.getD (j-1) ' '] := by
          have := take_succ_getD b (j-1) (by omega)
          rw [show j - 1 + 1 = j by omega] at this
          exact this
        simp only [List.foldl_cons]
        have hins : applyEditOp (a.take i) (EditOp.insertOp (b.getD (j-1) ' ') i) =
            a.take i ++ [b.getD (j-1) ' '] := by
          show (a.take i).insertIdx i (b.getD (j-1) ' ') = _
          exact insertIdx_self_at _ _ _ (hulen i hia).symm
        rw [hins, foldl_applyEditOp_append _ _ _
            (by rw [hulen i hia]; exact backtraceOps_fit a b i (j-1)),
          ih i (j-1) (by omega) (by omega) (by omega), hbtake]
      · exact absurd (backtraceOps_guard a b i j h0 h1 h2 h3 h4) (fun hf => hf)
      · -- i = 0 and j = 0
        have hi : i = 0 := by omega
        have hj : j = 0 := by omega
        subst hi; subst hj
        simp

/-- C8: the edit trace of `get_edit_operations a b` has exactly
`levenshtein_distance a b` operations (default configuration), and applying it
to `a` produces `b`.  (The tie-break priority match > substitute > delete >
insert is the branch order of `backtraceOps`.) -/
theorem C8_edit_operations_length_apply (a b : List Char) :
    (get_edit_operations a b).length = levenshtein_distance defaultEditCalc a b ∧
      applyEditOps (get_edit_operations a b) a = b := by
  constructor
  · rw [get_edit_operations, List.length_reverse, backtraceOps_length,
      opsTable_eq_levTable, levenshtein_distance_eq_levTable _ rfl]
    rfl
  · rw [applyEditOps, get_edit_operations, List.foldr_reverse]
    have := backtrace_apply a b a.length b.length le_rfl le_rfl
    simpa using this

/-! ### `FrequencyManager` (backend/utils/frequency_manager.py)

The state of a trained manager: the three count tables, the totals, and the
smoothing method read from the configuration.  (`word_freq` is always an alias
of `unigram_freq` and is never read by the probability queries, so it is not
modelled as a separate field.) -/

structure FrequencyManager where
  unigram_freq : List (String × Nat)
  bigram_freq : List (String × List (String × Nat))
  trigram_freq : List ((String × String) × List (String × Nat))
  total_words : Nat
  vocabulary_size : Nat
  smoothing_method : String

/-- Division as Python performs it: `none` models the `ZeroDivisionError`
raised on a zero denominator. -/
def pyDiv (num den : ℚ) : Option ℚ :=
  if den = 0 then none else some (num / den)

/-- `self.unigram_freq.get(word, 0)`. -/
def unigramCount (M : FrequencyManager) (word : String) : Nat :=
  alistGet M.unigram_freq word 0

/-- `self.bigram_freq[prev].get(word, 0)` (reading the inner `Counter`;
`defaultdict` yields the empty counter for an absent key). -/
def bigramCount (M : FrequencyManager) (prev word : String) : Nat :=
  alistGet (alistGet M.bigram_freq prev []) word 0

/-- `self.trigram_freq[prev_context].get(word, 0)`. -/
def trigramCount (M : FrequencyManager) (pc : String × String) (word : String) : Nat :=
  alistGet (alistGet M.trigram_freq pc []) word 0

/-- `sum(self.trigram_freq[prev_context].values())`. -/
def trigramContextTotal (M : FrequencyManager) (pc : String × String) : Nat :=
  (alistGet M.trigram_freq pc []).foldl (fun s p => s + p.2) 0

/-- `N₁`: the number of unigram entries whose count is exactly 1. -/
def singletonCount (M : FrequencyManager) : Nat :=
  (M.unigram_freq.filter (fun p => p.2 = 1)).length

/-- `FrequencyManager._good_turing_probability`. -/
def good_turing_probability (M : FrequencyManager) (word : String) : Option ℚ :=
  if unigramCount M word = 0 then
    pyDiv (singletonCount M : ℚ) (M.total_words : ℚ)
  else
    pyDiv (unigramCount M word : ℚ) (M.total_words : ℚ)

/-- `FrequencyManager.get_word_probability`: add-one and good-turing divide
unguarded; any other smoothing method takes the guarded `count / N if N > 0
else 0` branch. -/
def get_word_probability (M : FrequencyManager) (word : String) : Option ℚ :=
  if M.smoothing_method = "add-one" then
    pyDiv ((unigramCount M word : ℚ) + 1) ((M.total_words : ℚ) + (M.vocabulary_size : ℚ))
  else if M.smoothing_method = "good-turing" then
    good_turing_probability M word
  else
    some (if 0 < M.total_words then (unigramCount M word : ℚ) / (M.total_words : ℚ) else 0)

/-- The bigram denominator after the add-one adjustment (the value tested
against zero by the fallback guard). -/
def bigramDenominator (M : FrequencyManager) (prev : String) : Nat :=
  if M.smoothing_method = "add-one" then
    alistGet M.unigram_freq prev 0 + M.vocabulary_size
  else
    alistGet M.unigram_freq prev 0

/-- The bigram numerator after the add-one adjustment. -/
def bigramNumerator (M : FrequencyManager) (prev word : String) : Nat :=
  if M.smoothing_method = "add-one" then bigramCount M prev word + 1
  else bigramCount M prev word

/-- The trigram denominator after the add-one adjustment. -/
def trigramDenominator (M : FrequencyManager) (pc : String × String) : Nat :=
  if M.smoothing_method = "add-one" then
    trigramContextTotal M pc + M.vocabulary_size
  else
    trigramContextTotal M pc

/-- The trigram numerator after the add-one adjustment. -/
def trigramNumerator (M : FrequencyManager) (pc : String × String) (word : String) : Nat :=
  if M.smoothing_method = "add-one" then trigramCount M pc word + 1
  else trigramCount M pc word

/-- `FrequencyManager.get_conditional_probability`.  The `bigram` branch needs
one context word and the `trigram` branch two; a zero (adjusted) denominator
falls back, in the trigram case to the recursive bigram call on `context[-1:]`,
in the bigram case to the unigram probability; any other `model_type` (or too
little context) returns the unigram probability. -/
def get_conditional_probability (M : FrequencyManager) (word : String)
    (context : List String) (model_type : String) : Option ℚ :=
  if model_type = "bigram" ∧ 1 ≤ context.length then
    if 0 < bigramDenominator M (context.getLastD "") then
      some ((bigramNumerator M (context.getLastD "") word : ℚ) /
        (bigramDenominator M (context.getLastD "") : ℚ))
    else get_word_probability M word
  else if model_type = "trigram" ∧ 2 ≤ context.length then
    if 0 < trigramDenominator M (context.getD (context.length - 2) "", context.getLastD "") then
      some ((trigramNumerator M (context.getD (context.length - 2) "", context.getLastD "") word : ℚ) /
        (trigramDenominator M (context.getD (context.length - 2) "", context.getLastD "") : ℚ))
    else get_conditional_probability M word (context.drop (context.length - 1)) "bigram"
  else get_word_probability M word
termination_by if model_type = "trigram" then 1 else 0
decreasing_by
  rename_i hcond _hden
  simp only [hcond.1]
  simp

/-- `FrequencyManager.get_frequency_score`:
`0.3 * P(w) + 0.7 * P(w | context)` (the contextual factor is `P(w)` itself
when the context is empty). -/
def get_frequency_score (M : FrequencyManager) (word : String)
    (context : List String) (model_type : String) : Option ℚ :=
  (get_word_probability M word).bind (fun unigram_prob =>
    (if context ≠ [] then get_conditional_probability M word context model_type
     else some unigram_prob).map (fun contextual_prob =>
      (3/10 : ℚ) * unigram_prob + (7/10 : ℚ) * contextual_prob))

/-- C3: the unigram probability under the three smoothing modes:
add-one gives `(count+1)/(N+V)`, good-turing gives `N₁/N` for unseen words and
`count/N` for seen ones, and any other mode gives `count/N` guarded by `N > 0`
(and `0` when `N = 0`). -/
theorem C3_unigram_probability (M : FrequencyManager) (word : String) :
    (M.smoothing_method = "add-one" → 0 < M.total_words + M.vocabulary_size →
      get_word_probability M word =
        some (((unigramCount M word : ℚ) + 1) /
          ((M.total_words : ℚ) + (M.vocabulary_size : ℚ)))) ∧
    (M.smoothing_method = "good-turing" → 0 < M.total_words →
      (unigramCount M word = 0 →
        get_word_probability M word =
          some ((singletonCount M : ℚ) / (M.total_words : ℚ))) ∧
      (0 < unigramCount M word →
        get_word_probability M word =
          some ((unigramCount M word : ℚ) / (M.total_words : ℚ)))) ∧
    (M.smoothing_method ≠ "add-one" → M.smoothing_method ≠ "good-turing" →
      (0 < M.total_words →
        get_word_probability M word =
          some ((unigramCount M word : ℚ) / (M.total_words : ℚ))) ∧
      (M.total_words = 0 → get_word_probability M word = some 0)) := by
  refine ⟨?_, ?_, ?_⟩
  · intro hs hNV
    have hden : (M.total_words : ℚ) + (M.vocabulary_size : ℚ) ≠ 0 := by
      have hne : ((M.total_words + M.vocabulary_size : Nat) : ℚ) ≠ 0 := by
        rw [Nat.cast_ne_zero]; omega
      push_cast at hne
      exact hne
    rw [get_word_probability, if_pos hs, pyDiv, if_neg hden]
  · intro hs hN
    have hs1 : M.smoothing_method ≠ "add-one" := by rw [hs]; decide
    have hden : (M.total_words : ℚ) ≠ 0 := by rw [Nat.cast_ne_zero]; omega
    constructor
    · intro hc
      rw [get_word_probability, if_neg hs1, if_pos hs, good_turing_probability,
        if_pos hc, pyDiv, if_neg hden]
    · intro hc
      rw [get_word_probability, if_neg hs1, if_pos hs, good_turing_probability,
        if_neg (by omega), pyDiv, if_neg hden]
  · intro hs1 hs2
    constructor
    · intro hN
      rw [get_word_probability, if_neg hs1, if_neg hs2, if_pos hN]
    · intro hN
      rw [get_word_probability, if_neg hs1, if_neg hs2, if_neg (by omega)]

/-- A small trained manager used to instantiate the theorems (counts of
`"the the cat"`: 2+1 tokens, 2 distinct words). -/
def toyModel : FrequencyManager :=
  { unigram_freq := [("the", 2), ("cat", 1)]
    bigram_freq := [("the", [("the", 1), ("cat", 1)])]
    trigram_freq := [(("the", "the"), [("cat", 1)])]
    total_words := 3
    vocabulary_size := 2
    smoothing_method := "add-one" }

/-- `toyModel` with no smoothing. -/
def toyModelNone : FrequencyManager :=
  { toyModel with smoothing_method := "none" }

theorem C3_unigram_probability_witness :
    get_word_probability toyModel "cat" =
      some (((unigramCount toyModel "cat" : ℚ) + 1) /
        ((toyModel.total_words : ℚ) + (toyModel.vocabulary_size : ℚ))) ∧
      get_word_probability toyModel "cat" = some (2/5 : ℚ) := by
  constructor
  · exact (C3_unigram_probability toyModel "cat").1 rfl (by decide)
  · rw [(C3_unigram_probability toyModel "cat").1 rfl (by decide)]
    simp [toyModel, unigramCount, alistGet, List.find?]
    norm_num

/-- The conditional-probability query is defined whenever the unigram
probability is: every branch returns either an explicit `some`, the unigram
probability, or (for a trigram miss) the bigram query, whose branches in turn
end in the unigram probability. -/
theorem get_conditional_probability_isSome (M : FrequencyManager) (word : String)
    (h : (get_word_probability M word).isSome) :
    ∀ (context : List String) (model_type : String),
      (get_conditional_probability M word context model_type).isSome := by
  intro context model_type
  rw [get_conditional_probability]
  split_ifs with h1 h2 h3 h4
  · simp
  · exact h
  · simp
  · rw [get_conditional_probability]
    by_cases h5 : ("bigram" = "bigram" ∧
        1 ≤ (List.drop (context.length - 1) context).length)
    · rw [if_pos h5]
      split_ifs
      · simp
      · exact h
    · rw [if_neg h5, if_neg (fun hh => absurd hh.1 (by decide))]
      exact h
  · exact h

/-- C4: the conditional query never raises: an unknown `model_type` (or too
little context) returns the unigram probability; a zero trigram denominator
falls back to the bigram query on the last context word; a zero bigram
denominator falls back to the unigram probability; and the query is defined
whenever the unigram probability is. -/
theorem C4_conditional_probability_fallback (M : FrequencyManager) (word : String)
    (context : List String) (model_type : String) :
    ((get_word_probability M word).isSome →
      (get_conditional_probability M word context model_type).isSome) ∧
    (model_type ≠ "bigram" → model_type ≠ "trigram" →
      get_conditional_probability M word context model_type =
        get_word_probability M word) ∧
    (model_type = "trigram" → context.length < 2 →
      get_conditional_probability M word context model_type =
        get_word_probability M word) ∧
    (model_type = "bigram" → context = [] →
      get_conditional_probability M word context model_type =
        get_word_probability M word) ∧
    (model_type = "trigram" → 2 ≤ context.length →
      trigramDenominator M (context.getD (context.length - 2) "", context.getLastD "") = 0 →
      get_conditional_probability M word context model_type =
        get_conditional_probability M word (context.drop (context.length - 1)) "bigram") ∧
    (model_type = "bigram" → 1 ≤ context.length →
      bigramDenominator M (context.getLastD "") = 0 →
      get_conditional_probability M word context model_type =
        get_word_probability M word) := by
  refine ⟨fun h => get_conditional_probability_isSome M word h context model_type,
    ?_, ?_, ?_, ?_, ?_⟩
  · intro hb ht
    rw [get_conditional_probability,
      if_neg (fun hh => hb hh.1), if_neg (fun hh => ht hh.1)]
  · intro ht hlen
    have hb : model_type ≠ "bigram" := by rw [ht]; decide
    rw [get_conditional_probability,
      if_neg (fun hh => hb hh.1), if_neg (fun hh => by omega)]
  · intro hb hctx
    subst hctx
    rw [get_conditional_probability, if_neg (fun hh => by
        have := hh.2
        simp at this),
      if_neg (fun hh => by
        have := hh.2
        simp at this)]
  · intro ht hlen hden
    have hb : model_type ≠ "bigram" := by rw [ht]; decide
    rw [get_conditional_probability, if_neg (fun hh => hb hh.1),
      if_pos ⟨ht, hlen⟩,
      if_neg (by omega : ¬ 0 < trigramDenominator M
        (context.getD (context.length - 2) "", context.getLastD ""))]
  · intro hb hlen hden
    rw [get_conditional_probability, if_pos ⟨hb, hlen⟩,
      if_neg (by omega : ¬ 0 < bigramDenominator M (context.getLastD ""))]

theorem C4_conditional_probability_fallback_witness :
    (get_conditional_probability toyModelNone "cat" ["the", "cat"] "trigram" =
      get_conditional_probability toyModelNone "cat" ["cat"] "bigram") ∧
    (get_conditional_probability toyModelNone "cat" ["dog"] "bigram" =
      get_word_probability toyModelNone "cat") ∧
    (get_conditional_probability toyModel "cat" [] "perplexity-model" =
      get_word_probability toyModel "cat") ∧
    (get_conditional_probability toyModel "cat" ["the", "cat"] "trigram").isSome := by
  refine ⟨?_, ?_, ?_, ?_⟩
  · have h := (C4_conditional_probability_fallback toyModelNone "cat"
      ["the", "cat"] "trigram").2.2.2.2.1 rfl (by decide) (by decide)
    simpa using h
  · exact (C4_conditional_probability_fallback toyModelNone "cat"
      ["dog"] "bigram").2.2.2.2.2 rfl (by decide) (by decide)
  · exact (C4_conditional_probability_fallback toyModel "cat"
      [] "perplexity-model").2.1 (by decide) (by decide)
  · refine (C4_conditional_probability_fallback toyModel "cat"
      ["the", "cat"] "trigram").1 ?_
    rw [(C3_unigram_probability toyModel "cat").1 rfl (by decide)]
    simp

/-- The state of a freshly constructed manager (before `build_frequency_models`),
with add-one smoothing configured. -/
def emptyAddOneModel : FrequencyManager :=
  { unigram_freq := []
    bigram_freq := []
    trigram_freq := []
    total_words := 0
    vocabulary_size := 0
    smoothing_method := "add-one" }

/-- The same fresh state with good-turing smoothing configured. -/
def emptyGoodTuringModel : FrequencyManager :=
  { emptyAddOneModel with smoothing_method := "good-turing" }

/-- C10: with a trained model (`N > 0`) the unigram probability is defined for
every word under every smoothing method; without that precondition only the
guarded `none`-smoothing branch is total, while the add-one and good-turing
divisions fail on the freshly constructed (empty) manager. -/
theorem C10_unigram_probability_totality :
    (∀ (M : FrequencyManager) (word : String), 0 < M.total_words →
      (get_word_probability M word).isSome) ∧
    (∀ (M : FrequencyManager) (word : String),
      M.smoothing_method ≠ "add-one" → M.smoothing_method ≠ "good-turing" →
      (get_word_probability M word).isSome) ∧
    get_word_probability emptyAddOneModel "x" = none ∧
    get_word_probability emptyGoodTuringModel "x" = none := by
  refine ⟨?_, ?_, ?_, ?_⟩
  · intro M word hN
    rw [get_word_probability]
    split_ifs with h1 h2
    · rw [pyDiv, if_neg ?_]
      · simp
      · have hne : ((M.total_words + M.vocabulary_size : Nat) : ℚ) ≠ 0 := by
          rw [Nat.cast_ne_zero]; omega
        push_cast at hne
        exact hne
    · have hden : (M.total_words : ℚ) ≠ 0 := by rw [Nat.cast_ne_zero]; omega
      rw [good_turing_probability]
      split_ifs with h3 <;> rw [pyDiv, if_neg hden] <;> simp
    · simp
  · intro M word h1 h2
    rw [get_word_probability, if_neg h1, if_neg h2]
    simp
  · rw [get_word_probability, if_pos (by decide :
        emptyAddOneModel.smoothing_method = "add-one"), pyDiv,
      if_pos (by norm_num [emptyAddOneModel])]
  · rw [get_word_probability, if_neg (by decide :
        ¬ emptyGoodTuringModel.smoothing_method = "add-one"),
      if_pos (by decide : emptyGoodTuringModel.smoothing_method = "good-turing"),
      good_turing_probability, if_pos (by decide), pyDiv,
      if_pos (by norm_num [emptyGoodTuringModel, emptyAddOneModel])]

theorem C10_unigram_probability_totality_witness :
    (get_word_probability toyModel "dog").isSome ∧
      (get_word_probability toyModelNone "dog").isSome :=
  ⟨C10_unigram_probability_totality.1 toyModel "dog" (by decide),
   C10_unigram_probability_totality.2.1 toyModelNone "dog" (by decide) (by decide)⟩

/-! ### Persistence (`save_models` / `load_models`) -/

/-- The dictionary pickled by `save_models`: the three count tables, the totals,
and the configuration (of which the probability queries only consult the
smoothing method; `load_models` does not read the saved configuration at all). -/
structure SavedModels where
  unigram_freq : List (String × Nat)
  bigram_freq : List (String × List (String × Nat))
  trigram_freq : List ((String × String) × List (String × Nat))
  total_words : Nat
  vocabulary_size : Nat
  config_smoothing : String

/-- `FrequencyManager.save_models`: dump the tables and totals (`dict(...)` of
each `Counter` preserves every key/count pair). -/
def save_models (M : FrequencyManager) : SavedModels :=
  { unigram_freq := M.unigram_freq
    bigram_freq := M.bigram_freq
    trigram_freq := M.trigram_freq
    total_words := M.total_words
    vocabulary_size := M.vocabulary_size
    config_smoothing := M.smoothing_method }

/-- `FrequencyManager.load_models`, called on a manager `current`: rebuild the
counters from the saved dictionaries and overwrite the totals; the smoothing
method (set in `__init__` from the loading manager's configuration) is left
untouched, and the saved configuration is ignored. -/
def load_models (saved : SavedModels) (current : FrequencyManager) :
    FrequencyManager :=
  { unigram_freq := saved.unigram_freq
    bigram_freq := saved.bigram_freq
    trigram_freq := saved.trigram_freq
    total_words := saved.total_words
    vocabulary_size := saved.vocabulary_size
    smoothing_method := current.smoothing_method }

/-- C6: loading a saved model into a manager configured as `M` was reproduces
every count and total exactly, hence every unigram, conditional, and
frequency-score query answers as in `M`. -/
theorem C6_save_load_round_trip (M : FrequencyManager) (word : String)
    (context : List String) (model_type : String) :
    load_models (save_models M) M = M ∧
      get_word_probability (load_models (save_models M) M) word =
        get_word_probability M word ∧
      get_conditional_probability (load_models (save_models M) M) word context
          model_type =
        get_conditional_probability M word context model_type ∧
      get_frequency_score (load_models (save_models M) M) word context model_type =
        get_frequency_score M word context model_type := by
  have h : load_models (save_models M) M = M := rfl
  exact ⟨h, by rw [h], by rw [h], by rw [h]⟩

/-! ### `HomophoneDetector` (backend/utils/homophone_detector.py) -/

/-- The fixed homophone table (a Python `dict`; the duplicated `'its'` key in the
source collapses to a single entry with the same value). -/
def homophone_groups : List (String × List String) :=
  [("ileum", ["ilium"]), ("ilium", ["ileum"]),
   ("humerus", ["humorous"]), ("humorous", ["humerus"]),
   ("mucus", ["mucous"]), ("mucous", ["mucus"]),
   ("perineal", ["peroneal"]), ("peroneal", ["perineal"]),
   ("discreet", ["discrete"]), ("discrete", ["discreet"]),
   ("aphagia", ["aphasia"]), ("aphasia", ["aphagia"]),
   ("their", ["there", "theyre"]), ("there", ["their", "theyre"]),
   ("theyre", ["their", "there"]),
   ("to", ["too", "two"]), ("too", ["to", "two"]), ("two", ["to", "too"]),
   ("your", ["youre"]), ("youre", ["your"]),
   ("its", ["its"]),
   ("affect", ["effect"]), ("effect", ["affect"]),
   ("accept", ["except"]), ("except", ["accept"]),
   ("principal", ["principle"]), ("principle", ["principal"]),
   ("complement", ["compliment"]), ("compliment", ["complement"]),
   ("stationary", ["stationery"]), ("stationery", ["stationary"])]

/-- `HomophoneDetector.get_homophones`. -/
def get_homophones (word : String) : List String :=
  alistGet homophone_groups (lowerStr word) []

/-- `HomophoneDetector.is_homophone_error`: the stored homophones intersected
with the vocabulary; `(True, them)` when non-empty, `(False, [])` otherwise.
(The `context` argument is accepted and ignored, as in the source.) -/
def is_homophone_error (original : String) (_context : List String)
    (vocabulary : List String) : Bool × List String :=
  let valid := (get_homophones original).filter (fun h => vocabulary.contains h)
  if valid ≠ [] then (true, valid) else (false, [])

/-- The medical trigger words of `score_homophone_candidates`. -/
def medicalContextWords : List String := ["patient", "diagnosis", "treatment", "medical"]

/-- The medical homophone set of `score_homophone_candidates`. -/
def medicalHomophones : List String :=
  ["ileum", "ilium", "humerus", "mucus", "mucous", "perineal", "peroneal"]

/-- `HomophoneDetector.score_homophone_candidates`: `0.5` baseline, raised to
`0.8` for a medical homophone in a medical context, stably sorted descending. -/
def score_homophone_candidates (candidates : List String) (context : List String) :
    List (String × ℚ) :=
  stableSort (fun x y => y.2 ≤ x.2)
    (candidates.map (fun candidate =>
      (candidate,
        if (medicalContextWords.any (fun m => context.contains m)) ∧
            medicalHomophones.contains candidate then (8/10 : ℚ)
        else (1/2 : ℚ))))

/-! ### Rendering the operation strings and the error-type classifier -/

/-- The ASCII apostrophe used by the operation strings. -/
def qc : Char := Char.ofNat 39

/-- Decimal digit characters, as produced by Python's `str` on a position. -/
def digitChar : Nat → Char
  | 0 => '0' | 1 => '1' | 2 => '2' | 3 => '3' | 4 => '4'
  | 5 => '5' | 6 => '6' | 7 => '7' | 8 => '8' | _ => '9'

/-- Decimal rendering of a natural number (`str(p)` for the positions embedded
in the operation strings). -/
def natDigits (n : Nat) : List Char :=
  if _h : n < 10 then [digitChar n]
  else natDigits (n / 10) ++ [digitChar (n % 10)]
termination_by n
decreasing_by
  exact Nat.div_lt_self (by omega) (by omega)

/-- The exact operation strings produced by the f-strings of
`get_edit_operations`. -/
def renderOp : EditOp → List Char
  | EditOp.substituteOp c d p =>
      "substitute ".data ++ [qc] ++ [c] ++ [qc] ++ " -> ".data ++ [qc] ++ [d] ++
        [qc] ++ " at position ".data ++ natDigits p
  | EditOp.deleteOp c p =>
      "delete ".data ++ [qc] ++ [c] ++ [qc] ++ " at position ".data ++ natDigits p
  | EditOp.insertOp c p =>
      "insert ".data ++ [qc] ++ [c] ++ [qc] ++ " at position ".data ++ natDigits p

/-- Python's `in` on strings (character-list form): does `needle` occur
contiguously inside `hay`? -/
def containsSub (needle : List Char) : List Char → Bool
  | [] => beginsWith needle []
  | c :: t => beginsWith needle (c :: t) || containsSub needle t

/-- Python's banker's rounding `round(q, k)` (round half to even), on the exact
rational model of the floats involved. -/
def pyRound (q : ℚ) (k : Nat) : ℚ :=
  let m : ℚ := (10 : ℚ) ^ k
  let s := q * m
  let f : ℤ := ⌊s⌋
  let r := s - (f : ℚ)
  (if 1/2 < r then ((f + 1 : ℤ) : ℚ)
   else if r < 1/2 then ((f : ℤ) : ℚ)
   else if f % 2 = 0 then ((f : ℤ) : ℚ) else ((f + 1 : ℤ) : ℚ)) / m

/-! ### `SpellChecker` (backend/utils/spellchecker.py)

The engine state after `build_models`: the vocabulary (as the iteration order of
the Python `set`), the medical-term set, the domain weight, the trained
frequency manager, the edit-distance calculator, and the configuration values
read inside `check_text`.  Tokenization (`nltk.word_tokenize`, an external
library) is out of scope: `check_text` is modelled on the token list it
produces. -/

structure SpellChecker where
  vocab : List String
  medical_terms : List String
  domain_weight : ℚ
  fm : FrequencyManager
  edc : EditDistanceCalculator
  max_candidates : Nat
  max_suggestions : Nat
  homophone_enabled : Bool

structure Suggestion where
  word : String
  score : ℚ
  frequency_score : ℚ
  edit_distance : ℚ
  is_medical : Bool
deriving DecidableEq

structure ErrorRecord where
  original : String
  suggestions : List Suggestion
  position : Nat
  confidence : ℚ
  type : String
  context : List String
deriving DecidableEq

/-- An empty suggestion record (used only as a `getD` default in statements). -/
def noSuggestion : Suggestion :=
  { word := "", score := 0, frequency_score := 0, edit_distance := 0,
    is_medical := false }

/-- An empty error record (used only as a `getD` default in statements). -/
def noErrorRecord : ErrorRecord :=
  { original := "", suggestions := [], position := 0, confidence := 0,
    type := "", context := [] }

/-- `SpellChecker._classify_error_type`.  The homophone check compares the
lower-cased corrected word against the lower-cased homophones of the original;
the transposition check looks for `-transpose-` inside the lower-cased rendered
operation strings; the single-operation check looks for the operation keyword in
the rendered string; otherwise the phonetic distance decides between
`-phonetic-` and `-typo-`. -/
def classify_error_type (S : SpellChecker) (original corrected : String) : String :=
  if ((get_homophones original).map (fun h => lowerStr h)).contains (lowerStr corrected)
  then "homophone"
  else
    if get_edit_operations original.data corrected.data = [] then "no_error"
    else if (get_edit_operations original.data corrected.data).any
        (fun op => containsSub "transpose".data ((renderOp op).map Char.toLower)) then
      "transposition"
    else if (get_edit_operations original.data corrected.data).length = 1 ∧
        containsSub "substitute".data
          (renderOp ((get_edit_operations original.data corrected.data).getD 0
            (EditOp.deleteOp ' ' 0))) then
      "substitution"
    else if (get_edit_operations original.data corrected.data).length = 1 ∧
        containsSub "delete".data
          (renderOp ((get_edit_operations original.data corrected.data).getD 0
            (EditOp.deleteOp ' ' 0))) then
      "deletion"
    else if (get_edit_operations original.data corrected.data).length = 1 ∧
        containsSub "insert".data
          (renderOp ((get_edit_operations original.data corrected.data).getD 0
            (EditOp.deleteOp ' ' 0))) then
      "insertion"
    else if phonetic_distance S.edc original.data corrected.data <
        (get_edit_operations original.data corrected.data).length then
      "phonetic"
    else "typo"

/-- The left context of token `i`: the up-to-two preceding tokens, keeping only
the alphabetic ones (`[tokens[j] for j in range(max(0, i-2), i) if
tokens[j].isalpha()]`). -/
def checkContext (tokens : List String) (i : Nat) : List String :=
  ((tokens.take i).drop (i - 2)).filter (fun t => pyIsAlpha t)

/-- Score one candidate of the out-of-vocabulary branch: look up the frequency
score and attach `final = freq_score * domain_multiplier / (1 + d)` where `d` is
the value returned with the candidate by `get_candidates_by_distance` (the
combined distance score, unpacked as `edit_distance` by `check_text`). -/
def oovScore (S : SpellChecker) (mt : String) (ctx : List String)
    (ced : String × ℚ) : Option (String × ℚ × ℚ × ℚ) :=
  (get_frequency_score S.fm ced.1 ctx mt).map (fun fs =>
    (ced.1,
     fs * (if S.medical_terms.contains ced.1 then S.domain_weight else 1) / (1 + ced.2),
     fs, ced.2))

/-- The `scored` list of the out-of-vocabulary branch (in candidate order,
before the sort). -/
def oovScored (S : SpellChecker) (mt : String) (ctx : List String)
    (word : String) : Option (List (String × ℚ × ℚ × ℚ)) :=
  (get_candidates_by_distance S.edc word S.vocab S.max_candidates).mapM
    (oovScore S mt ctx)

/-- Build the emitted suggestion list from the sorted `scored` list. -/
def mkSuggestions (S : SpellChecker) (total : ℚ)
    (scored : List (String × ℚ × ℚ × ℚ)) : List Suggestion :=
  (scored.take S.max_suggestions).map (fun sc =>
    { word := sc.1
      score := if 0 < total then pyRound (sc.2.1 / total) 3 else 0
      frequency_score := pyRound sc.2.2.1 6
      edit_distance := sc.2.2.2
      is_medical := S.medical_terms.contains sc.1 })

/-- One iteration of the per-token loop of `check_text`: returns the token
emitted into the corrected stream and the error record, if any.  `none` models
an exception escaping the loop (a zero-division inside the frequency model). -/
def checkToken (S : SpellChecker) (mt : String) (tokens : List String)
    (i : Nat) (word : String) : Option (String × Option ErrorRecord) :=
  if word ∈ S.vocab ∨ ¬ pyIsAlpha word then
    if pyIsAlpha word ∧ S.homophone_enabled then
      if (is_homophone_error word (checkContext tokens i) S.vocab).1 then
        if (score_homophone_candidates
              (is_homophone_error word (checkContext tokens i) S.vocab).2
              (checkContext tokens i)) ≠ [] ∧
            7/10 < ((score_homophone_candidates
              (is_homophone_error word (checkContext tokens i) S.vocab).2
              (checkContext tokens i)).headD ("", 0)).2 then
          (((score_homophone_candidates
                (is_homophone_error word (checkContext tokens i) S.vocab).2
                (checkContext tokens i)).take S.max_suggestions).mapM (fun cs =>
            (get_frequency_score S.fm cs.1 (checkContext tokens i) mt).map (fun fs =>
              { word := cs.1, score := cs.2, frequency_score := fs,
                edit_distance := 0,
                is_medical := S.medical_terms.contains cs.1 : Suggestion }))).map
            (fun suggestions =>
              (word, some
                { original := word, suggestions := suggestions, position := i
                  confidence := ((score_homophone_candidates
                    (is_homophone_error word (checkContext tokens i) S.vocab).2
                    (checkContext tokens i)).headD ("", 0)).2
                  type := "homophone", context := checkContext tokens i }))
        else some (word, none)
      else some (word, none)
    else some (word, none)
  else
    (oovScored S mt (checkContext tokens i) word).bind (fun scoredRaw =>
      match stableSort (fun x y => y.2.1 ≤ x.2.1) scoredRaw with
      | [] => some (word, none)
      | best :: rest =>
          some (best.1, some
            { original := word
              suggestions := mkSuggestions S
                (((best :: rest).map (fun sc => sc.2.1)).sum) (best :: rest)
              position := i
              confidence :=
                if 0 < ((best :: rest).map (fun sc => sc.2.1)).sum then
                  pyRound (best.2.1 / ((best :: rest).map (fun sc => sc.2.1)).sum) 3
                else 0
              type := classify_error_type S word best.1
              context := checkContext tokens i }))

/-- The statistics dictionary of `_get_correction_statistics`: the empty error
list yields only `total_errors = 0`; otherwise the type counts (in first-seen
order), the rounded average confidence, and the medical-correction count and
rate. -/
inductive CorrectionStatistics where
  | emptyStats
  | stats (total_errors : Nat) (error_types : List (String × Nat))
      (average_confidence : ℚ) (medical_corrections : Nat)
      (medical_correction_rate : ℚ)
deriving DecidableEq

/-- `error_types[t] = error_types.get(t, 0) + 1` on an insertion-ordered dict. -/
def bumpType (l : List (String × Nat)) (t : String) : List (String × Nat) :=
  if (l.find? (fun p => p.1 = t)).isSome then
    l.map (fun p => if p.1 = t then (p.1, p.2 + 1) else p)
  else l ++ [(t, 1)]

/-- `SpellChecker._get_correction_statistics`. -/
def get_correction_statistics (error_list : List ErrorRecord) :
    CorrectionStatistics :=
  match error_list with
  | [] => CorrectionStatistics.emptyStats
  | _ :: _ =>
      CorrectionStatistics.stats error_list.length
        (error_list.foldl (fun acc e => bumpType acc e.type) [])
        (pyRound (((error_list.map (fun e => e.confidence)).sum) /
          (error_list.length : ℚ)) 3)
        ((error_list.filter (fun e =>
          match e.suggestions with
          | [] => false
          | sg :: _ => sg.is_medical)).length)
        (pyRound (((error_list.filter (fun e =>
          match e.suggestions with
          | [] => false
          | sg :: _ => sg.is_medical)).length : ℚ) / (error_list.length : ℚ)) 3)

structure CheckResult where
  corrected_text : String
  errors : List ErrorRecord
  statistics : CorrectionStatistics
deriving DecidableEq

/-- `SpellChecker.check_text`, modelled on the token list produced by the
(external) tokenizer: run the per-token loop, join the corrected tokens with
single spaces, collect the error records, and compute the statistics. -/
def check_text (S : SpellChecker) (tokens : List String) (mt : String) :
    Option CheckResult :=
  (tokens.enum.mapM (fun iw => checkToken S mt tokens iw.1 iw.2)).map
    (fun results =>
      { corrected_text := String.intercalate " " (results.map (fun r => r.1))
        errors := results.filterMap (fun r => r.2)
        statistics := get_correction_statistics (results.filterMap (fun r => r.2)) })

/-- The corrected token stream of `check_text` (the list joined into
`corrected_text`). -/
def correctedTokens (S : SpellChecker) (tokens : List String) (mt : String) :
    Option (List String) :=
  (tokens.enum.mapM (fun iw => checkToken S mt tokens iw.1 iw.2)).map
    (fun results => results.map (fun r => r.1))

/-! ### Structural facts about the per-token loop -/

theorem mapM_option_forall₂ {α β : Type} (f : α → Option β) :
    ∀ (l : List α) (r : List β), l.mapM f = some r →
      List.Forall₂ (fun x y => f x = some y) l r := by
  intro l
  induction l with
  | nil =>
      intro r h
      rw [List.mapM_nil] at h
      cases h
      exact List.Forall₂.nil
  | cons x xs ih =>
      intro r h
      rw [List.mapM_cons] at h
      cases hf : f x with
      | none => rw [hf] at h; simp at h
      | some y =>
          rw [hf] at h
          cases hm : xs.mapM f with
          | none => rw [hm] at h; simp at h
          | some ys =>
              rw [hm] at h
              simp at h
              subst h
              exact List.Forall₂.cons hf (ih ys hm)

/-- Any record produced for token `i` carries position `i`, the original token,
and its context. -/
theorem checkToken_record (S : SpellChecker) (mt : String) (tokens : List String)
    (i : Nat) (word : String) (res : String × Option ErrorRecord)
    (e : ErrorRecord) (h : checkToken S mt tokens i word = some res)
    (he : res.2 = some e) :
    e.position = i ∧ e.original = word ∧ e.context = checkContext tokens i ∧
      (e.type = "homophone" ∨
        ∃ corrected, e.type = classify_error_type S word corrected) := by
  rw [checkToken] at h
  split_ifs at h with h1 h2 h3 h4
  · -- homophone record branch
    cases hm : ((score_homophone_candidates
        (is_homophone_error word (checkContext tokens i) S.vocab).2
        (checkContext tokens i)).take S.max_suggestions).mapM (fun cs =>
          (get_frequency_score S.fm cs.1 (checkContext tokens i) mt).map (fun fs =>
            { word := cs.1, score := cs.2, frequency_score := fs,
              edit_distance := 0,
              is_medical := S.medical_terms.contains cs.1 : Suggestion })) with
    | none => rw [hm] at h; exact Option.noConfusion h
    | some suggestions =>
        rw [hm] at h
        simp only [Option.map_some', Option.some.injEq] at h
        subst h
        simp only [Option.some.injEq] at he
        subst he
        exact ⟨rfl, rfl, rfl, Or.inl rfl⟩
  · cases h; exact Option.noConfusion he
  · cases h; exact Option.noConfusion he
  · cases h; exact Option.noConfusion he
  · -- out-of-vocabulary branch
    cases hs : oovScored S mt (checkContext tokens i) word with
    | none => rw [hs] at h; exact Option.noConfusion h
    | some scoredRaw =>
        rw [hs] at h
        simp only [Option.some_bind] at h
        cases hsort : stableSort (fun x y => y.2.1 ≤ x.2.1) scoredRaw with
        | nil => rw [hsort] at h; cases h; exact Option.noConfusion he
        | cons best rest =>
            rw [hsort] at h
            cases h
            simp only [Option.some.injEq] at he
            subst he
            exact ⟨rfl, rfl, rfl, Or.inr ⟨best.1, rfl⟩⟩

theorem stableSort_length (le : α → α → Bool) (l : List α) :
    (stableSort le l).length = l.length :=
  (stableSort_perm le l).length_eq

/-- When the detector reports a homophone error, the scored candidate list is
non-empty. -/
theorem score_homophone_candidates_ne_nil (w : String) (ctx vocab : List String)
    (h : (is_homophone_error w ctx vocab).1 = true) :
    score_homophone_candidates (is_homophone_error w ctx vocab).2 ctx ≠ [] := by
  rw [is_homophone_error] at h ⊢
  split_ifs at h ⊢ with hvalid
  · intro hempty
    rw [score_homophone_candidates] at hempty
    have hlen := congrArg List.length hempty
    rw [stableSort_length, List.length_map] at hlen
    simp only [List.length_nil] at hlen
    exact hvalid (List.eq_nil_of_length_eq_zero hlen)

/-- The in-vocabulary / non-alphabetic branch emits the token unchanged, and
produces a record exactly when homophone detection is enabled, the detector
finds vocabulary homophones, and the top score exceeds `0.7`. -/
theorem checkToken_keep (S : SpellChecker) (mt : String) (tokens : List String)
    (i : Nat) (word : String) (res : String × Option ErrorRecord)
    (hv : word ∈ S.vocab ∨ ¬ pyIsAlpha word)
    (h : checkToken S mt tokens i word = some res) :
    res.1 = word ∧
      (res.2.isSome ↔
        (pyIsAlpha word ∧ S.homophone_enabled = true ∧
          (is_homophone_error word (checkContext tokens i) S.vocab).1 = true ∧
          7/10 < ((score_homophone_candidates
            (is_homophone_error word (checkContext tokens i) S.vocab).2
            (checkContext tokens i)).headD ("", 0)).2)) ∧
      (∀ e, res.2 = some e → e.type = "homophone") := by
  rw [checkToken, if_pos hv] at h
  by_cases h1 : pyIsAlpha word ∧ S.homophone_enabled
  · rw [if_pos h1] at h
    by_cases h2 : (is_homophone_error word (checkContext tokens i) S.vocab).1
    · rw [if_pos h2] at h
      by_cases h3 : (score_homophone_candidates
            (is_homophone_error word (checkContext tokens i) S.vocab).2
            (checkContext tokens i)) ≠ [] ∧
          7/10 < ((score_homophone_candidates
            (is_homophone_error word (checkContext tokens i) S.vocab).2
            (checkContext tokens i)).headD ("", 0)).2
      · rw [if_pos h3] at h
        cases hm : ((score_homophone_candidates
            (is_homophone_error word (checkContext tokens i) S.vocab).2
            (checkContext tokens i)).take S.max_suggestions).mapM (fun cs =>
              (get_frequency_score S.fm cs.1 (checkContext tokens i) mt).map (fun fs =>
                { word := cs.1, score := cs.2, frequency_score := fs,
                  edit_distance := 0,
                  is_medical := S.medical_terms.contains cs.1 : Suggestion })) with
        | none => rw [hm] at h; exact Option.noConfusion h
        | some suggestions =>
            rw [hm] at h
            simp only [Option.map_some', Option.some.injEq] at h
            subst h
            refine ⟨rfl, ?_, ?_⟩
            · exact ⟨fun _ => ⟨h1.1, h1.2, by simpa using h2, h3.2⟩, fun _ => rfl⟩
            · intro e he
              simp only [Option.some.injEq] at he
              subst he
              rfl
      · rw [if_neg h3] at h
        cases h
        refine ⟨rfl, ?_, fun e he => Option.noConfusion he⟩
        constructor
        · intro hf
          exact absurd hf (by simp)
        · intro hcond
          exact absurd (fun hscore =>
              h3 ⟨score_homophone_candidates_ne_nil word (checkContext tokens i)
                S.vocab (by simpa using h2), hcond.2.2.2⟩) (fun hq => hq hcond.2.2.2)
    · rw [if_neg h2] at h
      cases h
      refine ⟨rfl, ?_, fun e he => Option.noConfusion he⟩
      constructor
      · intro hf
        exact absurd hf (by simp)
      · intro hcond
        exact absurd hcond.2.2.1 h2
  · rw [if_neg h1] at h
    cases h
    refine ⟨rfl, ?_, fun e he => Option.noConfusion he⟩
    constructor
    · intro hf
      exact absurd hf (by simp)
    · intro hcond
      exact absurd ⟨hcond.1, hcond.2.1⟩ h1

/-- Pointwise reading of a successful `check_text` run: the per-token loop
succeeded on every token, in order. -/
theorem check_text_results (S : SpellChecker) (tokens : List String) (mt : String)
    (results : List (String × Option ErrorRecord))
    (hm : tokens.enum.mapM (fun iw => checkToken S mt tokens iw.1 iw.2) = some results) :
    results.length = tokens.length ∧
      ∀ k (hk : k < tokens.length) (hk2 : k < results.length),
        checkToken S mt tokens k (tokens.get ⟨k, hk⟩) = some (results.get ⟨k, hk2⟩) := by
  have hf := mapM_option_forall₂ (fun iw => checkToken S mt tokens iw.1 iw.2)
    tokens.enum results hm
  have hlen : results.length = tokens.length := by
    have := hf.length_eq
    simpa using this.symm
  refine ⟨hlen, ?_⟩
  intro k hk hk2
  have hget := (List.forall₂_iff_get.mp hf).2 k (by simpa using hk) hk2
  have henum : tokens.enum.get ⟨k, by simpa using hk⟩ = (k, tokens.get ⟨k, hk⟩) := by
    simp [List.get_eq_getElem, List.getElem_enum]
  rw [henum] at hget
  exact hget

/-- C5: a token that is in the vocabulary or non-alphabetic is emitted
unchanged into the corrected stream; it yields an error record (necessarily an
advisory homophone record) exactly when homophone detection is enabled, the
detector finds vocabulary homophones of it, and the top homophone score exceeds
`0.7`. -/
theorem C5_in_vocab_pass_through (S : SpellChecker) (tokens : List String)
    (mt : String) (r : CheckResult) (i : Nat) (hi : i < tokens.length)
    (hv : tokens.getD i "" ∈ S.vocab ∨ ¬ pyIsAlpha (tokens.getD i ""))
    (h : check_text S tokens mt = some r) :
    (∃ cts, correctedTokens S tokens mt = some cts ∧
      cts.length = tokens.length ∧ cts.getD i "" = tokens.getD i "") ∧
    ((∃ e ∈ r.errors, e.position = i) ↔
      (pyIsAlpha (tokens.getD i "") ∧ S.homophone_enabled = true ∧
        (is_homophone_error (tokens.getD i "") (checkContext tokens i) S.vocab).1 = true ∧
        7/10 < ((score_homophone_candidates
          (is_homophone_error (tokens.getD i "") (checkContext tokens i) S.vocab).2
          (checkContext tokens i)).headD ("", 0)).2)) ∧
    (∀ e ∈ r.errors, e.position = i → e.type = "homophone") := by
  rw [check_text] at h
  cases hm : tokens.enum.mapM (fun iw => checkToken S mt tokens iw.1 iw.2) with
  | none => rw [hm] at h; exact Option.noConfusion h
  | some results =>
      rw [hm] at h
      simp only [Option.map_some', Option.some.injEq] at h
      subst h
      obtain ⟨hlen, hpt⟩ := check_text_results S tokens mt results hm
      have hgetD : tokens.getD i "" = tokens.get ⟨i, hi⟩ := by
        rw [List.getD_eq_getElem _ _ hi, List.get_eq_getElem]
      have hti := hpt i hi (by omega)
      have hkeep := checkToken_keep S mt tokens i (tokens.get ⟨i, hi⟩)
        (results.get ⟨i, by omega⟩) (by rw [← hgetD]; exact hv) hti
      have hposition : ∀ (k : Nat) (hk2 : k < results.length) (e : ErrorRecord),
          (results.get ⟨k, hk2⟩).2 = some e → e.position = k := by
        intro k hk2 e he
        exact (checkToken_record S mt tokens k (tokens.get ⟨k, by omega⟩)
          (results.get ⟨k, hk2⟩) e (hpt k (by omega) hk2) he).1
      refine ⟨⟨results.map (fun p => p.1), ?_, ?_, ?_⟩, ?_, ?_⟩
      · rw [correctedTokens, hm]
        rfl
      · rw [List.length_map, hlen]
      · rw [List.getD_eq_getElem _ _ (by simp; omega), List.getElem_map]
        rw [hgetD]
        exact hkeep.1
      · constructor
        · rintro ⟨e, he, hepos⟩
          simp only at he
          obtain ⟨res, hres, hres2⟩ := List.mem_filterMap.mp he
          obtain ⟨⟨k, hk2⟩, hkres⟩ := List.mem_iff_get.mp hres
          have hek : e.position = k := hposition k hk2 e (by rw [hkres]; exact hres2)
          have hki : k = i := by omega
          subst hki
          have hsome : (results.get ⟨k, hk2⟩).2.isSome := by
            rw [hkres, hres2]; rfl
          rw [← hgetD] at hkeep
          exact hkeep.2.1.mp (by
            have : (results.get ⟨k, by omega⟩).2.isSome := hsome
            exact this)
        · intro hcond
          rw [← hgetD] at hkeep
          have hsome := hkeep.2.1.mpr hcond
          cases he : (results.get ⟨i, by omega⟩).2 with
          | none => rw [he] at hsome; simp at hsome
          | some e =>
              refine ⟨e, ?_, ?_⟩
              · simp only
                exact List.mem_filterMap.mpr ⟨results.get ⟨i, by omega⟩,
                  List.get_mem _ _ _, he⟩
              · exact hposition i (by omega) e he
      · intro e he hepos
        simp only at he
        obtain ⟨res, hres, hres2⟩ := List.mem_filterMap.mp he
        obtain ⟨⟨k, hk2⟩, hkres⟩ := List.mem_iff_get.mp hres
        have hek : e.position = k := hposition k hk2 e (by rw [hkres]; exact hres2)
        have hki : k = i := by omega
        subst hki
        rw [← hgetD] at hkeep
        exact hkeep.2.2 e (by rw [hkres]; exact hres2)

/-- A small concrete engine over the vocabulary `{ileum, ilium, patient}`,
with the `none`-smoothing toy model. -/
def homS : SpellChecker :=
  { vocab := ["ileum", "ilium", "patient"]
    medical_terms := ["ileum", "ilium"]
    domain_weight := 2
    fm := toyModelNone
    edc := defaultEditCalc
    max_candidates := 20
    max_suggestions := 5
    homophone_enabled := true }

theorem homS_ctx1 : checkContext ["patient", "ileum"] 1 = ["patient"] := by decide

theorem homS_ctx0 : checkContext ["patient", "ileum"] 0 = [] := by decide

theorem homS_score :
    score_homophone_candidates
      (is_homophone_error "ileum" ["patient"] homS.vocab).2 ["patient"] =
      [("ilium", 8/10)] := by
  simp [score_homophone_candidates, is_homophone_error, get_homophones,
    homophone_groups, alistGet, lowerStr, stableSort, insertSorted,
    medicalContextWords, medicalHomophones, homS, List.find?]

theorem homS_freq :
    get_frequency_score homS.fm "ilium" ["patient"] "bigram" = some 0 := by
  have hw : get_word_probability homS.fm "ilium" = some 0 := by
    rw [get_word_probability, if_neg (by decide), if_neg (by decide)]
    simp [unigramCount, alistGet, homS, toyModelNone, toyModel, List.find?]
  have hc : get_conditional_probability homS.fm "ilium" ["patient"] "bigram" =
      some 0 := by
    rw [get_conditional_probability, if_pos (by decide)]
    rw [if_neg (by decide)]
    exact hw
  rw [get_frequency_score, hw]
  simp only [Option.some_bind]
  rw [if_pos (by decide), hc]
  norm_num

/-- The advisory homophone suggestion emitted for `"ileum"` by `homS`. -/
def ileumSuggestion : Suggestion :=
  { word := "ilium", score := 8/10, frequency_score := 0, edit_distance := 0,
    is_medical := true }

/-- The advisory homophone record emitted for `"ileum"` by `homS`. -/
def ileumRecord : ErrorRecord :=
  { original := "ileum", suggestions := [ileumSuggestion], position := 1,
    confidence := 8/10, type := "homophone", context := ["patient"] }

theorem homS_token0 :
    checkToken homS "bigram" ["patient", "ileum"] 0 "patient" =
      some ("patient", none) := by
  rw [checkToken, if_pos (by decide : ("patient" ∈ homS.vocab ∨
      ¬ pyIsAlpha "patient")),
    if_pos (by decide : (pyIsAlpha "patient" ∧ homS.homophone_enabled)),
    if_neg]
  rw [homS_ctx0]
  decide

theorem homS_token1 :
    checkToken homS "bigram" ["patient", "ileum"] 1 "ileum" =
      some ("ileum", some ileumRecord) := by
  rw [checkToken, if_pos (by decide : ("ileum" ∈ homS.vocab ∨
      ¬ pyIsAlpha "ileum")),
    if_pos (by decide : (pyIsAlpha "ileum" ∧ homS.homophone_enabled)),
    homS_ctx1]
  rw [if_pos (by decide :
    (is_homophone_error "ileum" ["patient"] homS.vocab).1 = true)]
  rw [homS_score]
  rw [if_pos (by norm_num : ([(("ilium" : String), (8/10 : ℚ))] ≠ [] ∧
    (7 : ℚ)/10 < (([(("ilium" : String), (8/10 : ℚ))]).headD ("", 0)).2))]
  simp only [List.take, List.mapM_cons, List.mapM_nil, homS_freq,
    Option.map_some', Option.some_bind, Option.pure_def, Option.some.injEq,
    List.headD]
  simp [ileumRecord, ileumSuggestion, homS]

/-- The full result of `check_text homS ["patient", "ileum"] "bigram"`. -/
def homSResult : CheckResult :=
  { corrected_text := "patient ileum"
    errors := [ileumRecord]
    statistics := CorrectionStatistics.stats 1 [("homophone", 1)] (4/5) 1 1 }

theorem pyRound_eval (q : ℚ) (k : Nat) (f : ℤ)
    (hf : (f : ℚ) ≤ q * (10 : ℚ) ^ k) (hr : q * (10 : ℚ) ^ k - (f : ℚ) < 1/2) :
    pyRound q k = (f : ℚ) / (10 : ℚ) ^ k := by
  have hfl : ⌊q * (10 : ℚ) ^ k⌋ = f := by
    rw [Int.floor_eq_iff]
    constructor
    · exact hf
    · have h12 : (1 : ℚ)/2 < 1 := by norm_num
      linarith
  rw [pyRound]
  simp only [hfl]
  rw [if_neg (by linarith), if_pos (by linarith)]

theorem homS_stats :
    get_correction_statistics [ileumRecord] =
      CorrectionStatistics.stats 1 [("homophone", 1)] (4/5) 1 1 := by
  rw [get_correction_statistics]
  have h1 : pyRound ((8 : ℚ)/10) 3 = 4/5 := by
    rw [pyRound_eval _ _ 800 (by norm_num) (by norm_num)]
    norm_num
  have h2 : pyRound (1 : ℚ) 3 = 1 := by
    rw [pyRound_eval _ _ 1000 (by norm_num) (by norm_num)]
    norm_num
  simp [bumpType, ileumRecord, ileumSuggestion, List.find?, h1, h2]

theorem homS_check_text :
    check_text homS ["patient", "ileum"] "bigram" = some homSResult := by
  have henum : (["patient", "ileum"] : List String).enum =
      [(0, "patient"), (1, "ileum")] := by decide
  rw [check_text, henum]
  simp only [List.mapM_cons, List.mapM_nil, homS_token0, homS_token1,
    Option.pure_def, Option.bind_eq_bind, Option.some_bind, Option.map_some',
    Option.some.injEq]
  rw [homSResult]
  simp only [List.map_cons, List.map_nil, List.filterMap]
  refine CheckResult.mk.injEq _ _ _ _ _ _ ▸ ?_
  refine ⟨by decide, rfl, ?_⟩
  simpa using homS_stats

theorem C5_in_vocab_pass_through_witness :
    check_text homS ["patient", "ileum"] "bigram" = some homSResult ∧
      (∃ cts, correctedTokens homS ["patient", "ileum"] "bigram" = some cts ∧
        cts.length = 2 ∧ cts.getD 1 "" = "ileum") ∧
      (∃ e ∈ homSResult.errors, e.position = 1) ∧
      (∀ e ∈ homSResult.errors, e.position = 1 → e.type = "homophone") := by
  have h5 := C5_in_vocab_pass_through homS ["patient", "ileum"] "bigram"
    homSResult 1 (by decide) (by decide) homS_check_text
  refine ⟨homS_check_text, ?_, ?_, h5.2.2⟩
  · obtain ⟨cts, hcts, hlen, hget⟩ := h5.1
    exact ⟨cts, hcts, by simpa using hlen, by simpa using hget⟩
  · refine h5.2.1.mpr ⟨by decide, by decide, by decide, ?_⟩
    rw [homS_ctx1, show (["patient", "ileum"] : List String).getD 1 "" = "ileum"
      from by decide, homS_score]
    norm_num

/-! ### The transposition branch of the classifier is unreachable (C9) -/

/-- The adjacent-character pairs of a string. -/
def charPairs (l : List Char) : List (Char × Char) := l.zip l.tail

theorem charPairs_cons (x : Char) (l : List Char) (p : Char × Char)
    (h : p ∈ charPairs l) : p ∈ charPairs (x :: l) := by
  cases l with
  | nil => simp [charPairs] at h
  | cons y t =>
      simp only [charPairs, List.tail_cons, List.zip_cons_cons] at h ⊢
      exact List.mem_cons_of_mem _ h

theorem charPairs_append_left (l r : List Char) (p : Char × Char)
    (h : p ∈ charPairs l) : p ∈ charPairs (l ++ r) := by
  induction l with
  | nil => simp [charPairs] at h
  | cons x t ih =>
      cases t with
      | nil => simp [charPairs] at h
      | cons y u =>
          simp only [charPairs, List.tail_cons, List.zip_cons_cons,
            List.cons_append, List.mem_cons] at h ⊢
          rcases h with h | h
          · exact Or.inl h
          · right
            have := ih (by simpa [charPairs] using h)
            simpa [charPairs] using this

theorem charPairs_append_right (l r : List Char) (p : Char × Char)
    (h : p ∈ charPairs r) : p ∈ charPairs (l ++ r) := by
  induction l with
  | nil => simpa using h
  | cons x t ih => exact charPairs_cons x (t ++ r) p ih

/-- Decompose membership in the pairs of a concatenation: inside the left part,
inside the right part, or across the boundary. -/
theorem charPairs_append_cases (l r : List Char) (p : Char × Char)
    (h : p ∈ charPairs (l ++ r)) :
    p ∈ charPairs l ∨ p ∈ charPairs r ∨
      (l.getLast? = some p.1 ∧ r.head? = some p.2) := by
  induction l with
  | nil => exact Or.inr (Or.inl (by simpa using h))
  | cons x t ih =>
      cases t with
      | nil =>
          cases r with
          | nil => simp [charPairs] at h
          | cons y u =>
              simp only [List.nil_append, List.singleton_append, charPairs,
                List.tail_cons, List.zip_cons_cons, List.mem_cons] at h
              rcases h with h | h
              · right; right
                subst h
                exact ⟨rfl, rfl⟩
              · exact Or.inr (Or.inl (by simpa [charPairs] using h))
      | cons y u =>
          simp only [List.cons_append, charPairs, List.tail_cons,
            List.zip_cons_cons, List.mem_cons] at h
          rcases h with h | h
          · left
            simp only [charPairs, List.tail_cons, List.zip_cons_cons,
              List.mem_cons]
            exact Or.inl h
          · have := ih (by simpa [charPairs] using h)
            rcases this with h1 | h1 | h1
            · left
              exact charPairs_cons x (y :: u) p h1
            · exact Or.inr (Or.inl h1)
            · right; right
              simpa using h1

theorem charPairs_mem_both (l : List Char) (p : Char × Char)
    (h : p ∈ charPairs l) : p.1 ∈ l ∧ p.2 ∈ l := by
  induction l with
  | nil => simp [charPairs] at h
  | cons x t ih =>
      cases t with
      | nil => simp [charPairs] at h
      | cons y u =>
          simp only [charPairs, List.tail_cons, List.zip_cons_cons,
            List.mem_cons] at h
          rcases h with h | h
          · rw [Prod.ext_iff] at h
            simp only [List.mem_cons]
            exact ⟨Or.inl h.1, Or.inr (Or.inl h.2)⟩
          · have := ih (by simpa [charPairs] using h)
            simp only [List.mem_cons]
            refine ⟨Or.inr ?_, Or.inr ?_⟩
            · simpa using this.1
            · simpa using this.2

theorem beginsWith_iff (n : List Char) :
    ∀ h : List Char, beginsWith n h = true ↔ ∃ post, h = n ++ post := by
  induction n with
  | nil => intro h; simp [beginsWith]
  | cons x xs ih =>
      intro h
      cases h with
      | nil => simp [beginsWith]
      | cons y t =>
          simp only [beginsWith, Bool.and_eq_true, decide_eq_true_eq, ih t,
            List.cons_append, List.cons.injEq]
          constructor
          · rintro ⟨rfl, post, rfl⟩
            exact ⟨post, rfl, rfl⟩
          · rintro ⟨post, rfl, rfl⟩
            exact ⟨rfl, post, rfl⟩

theorem containsSub_iff (n : List Char) :
    ∀ h : List Char, containsSub n h = true ↔ ∃ pre post, h = pre ++ n ++ post := by
  intro h
  induction h with
  | nil =>
      simp only [containsSub, beginsWith_iff]
      constructor
      · rintro ⟨post, hpost⟩
        exact ⟨[], post, by simpa using hpost⟩
      · rintro ⟨pre, post, hsplit⟩
        rcases List.append_eq_nil.mp (List.append_eq_nil.mp hsplit.symm).1 with
          ⟨hpre, hn⟩
        exact ⟨[], by simp [hn]⟩
  | cons c t ih =>
      simp only [containsSub, Bool.or_eq_true, beginsWith_iff, ih]
      constructor
      · rintro (⟨post, hpost⟩ | ⟨pre, post, hsplit⟩)
        · exact ⟨[], post, by simpa using hpost⟩
        · exact ⟨c :: pre, post, by simp [hsplit]⟩
      · rintro ⟨pre, post, hsplit⟩
        cases pre with
        | nil =>
            left
            exact ⟨post, by simpa using hsplit⟩
        | cons p ps =>
            right
            simp only [List.cons_append, List.cons.injEq] at hsplit
            exact ⟨ps, post, hsplit.2⟩

theorem digitChar_mem (m : Nat) :
    digitChar m ∈ ['0', '1', '2', '3', '4', '5', '6', '7', '8', '9'] := by
  rcases m with _|_|_|_|_|_|_|_|_|m <;> simp [digitChar]

theorem natDigits_mem (n : Nat) :
    ∀ c ∈ natDigits n, c ∈ ['0', '1', '2', '3', '4', '5', '6', '7', '8', '9'] := by
  induction n using Nat.strong_induction_on with
  | _ n ih =>
      intro c hc
      rw [natDigits] at hc
      split_ifs at hc with h10
      · simp only [List.mem_singleton] at hc
        subst hc
        exact digitChar_mem n
      · rcases List.mem_append.mp hc with h | h
        · exact ih (n / 10) (Nat.div_lt_self (by omega) (by omega)) c h
        · simp only [List.mem_singleton] at h
          subst h
          exact digitChar_mem (n % 10)

theorem map_toLower_natDigits (n : Nat) :
    (natDigits n).map Char.toLower = natDigits n := by
  have h : ∀ c ∈ natDigits n, Char.toLower c = c := by
    intro c hc
    have := natDigits_mem n c hc
    fin_cases this <;> decide
  calc (natDigits n).map Char.toLower = (natDigits n).map id :=
        List.map_congr_left h
    _ = natDigits n := List.map_id _

/-- Peel one segment off an append when looking for the pair `('a','n')`. -/
theorem an_peel (s rest : List Char)
    (hs : (('a', 'n') : Char × Char) ∉ charPairs s)
    (hbound : s.getLast? ≠ some 'a' ∨ rest.head? ≠ some 'n')
    (hrest : (('a', 'n') : Char × Char) ∉ charPairs rest) :
    (('a', 'n') : Char × Char) ∉ charPairs (s ++ rest) := by
  intro h
  rcases charPairs_append_cases s rest _ h with h1 | h1 | h1
  · exact hs h1
  · exact hrest h1
  · rcases hbound with hb | hb
    · exact hb h1.1
    · exact hb h1.2

theorem an_not_mem_digits (n : Nat) :
    (('a', 'n') : Char × Char) ∉ charPairs (natDigits n) := by
  intro h
  have := (charPairs_mem_both (natDigits n) _ h).1
  have hmem := natDigits_mem n 'a' this
  simp at hmem

/-- No lower-cased rendered operation string contains the adjacent pair
`('a','n')` (the fixed text never does, the quoted payload is a single character
flanked by apostrophes, and the position is decimal digits). -/
theorem an_not_mem_lower_render (op : EditOp) :
    (('a', 'n') : Char × Char) ∉ charPairs ((renderOp op).map Char.toLower) := by
  cases op with
  | substituteOp c d p =>
      show (('a', 'n') : Char × Char) ∉ charPairs
        (("substitute ".data ++ [qc] ++ [c] ++ [qc] ++ " -> ".data ++ [qc] ++ [d] ++
          [qc] ++ " at position ".data ++ natDigits p).map Char.toLower)
      simp only [List.map_append, map_toLower_natDigits]
      rw [show (List.map Char.toLower "substitute ".data) = "substitute ".data from by decide,
        show (List.map Char.toLower " -> ".data) = " -> ".data from by decide,
        show (List.map Char.toLower " at position ".data) = " at position ".data from by decide,
        show (List.map Char.toLower [qc]) = [qc] from by decide]
      simp only [List.map_cons, List.map_nil]
      simp only [List.append_assoc]
      refine an_peel _ _ (by decide) (Or.inl (by decide)) ?_
      refine an_peel _ _ (by decide) (Or.inl (by decide)) ?_
      refine an_peel _ _ (by simp [charPairs]) (Or.inr (by
        simp only [List.singleton_append, List.head?_cons]
        decide)) ?_
      refine an_peel _ _ (by decide) (Or.inl (by decide)) ?_
      refine an_peel _ _ (by decide) (Or.inl (by decide)) ?_
      refine an_peel _ _ (by decide) (Or.inl (by decide)) ?_
      refine an_peel _ _ (by simp [charPairs]) (Or.inr (by
        simp only [List.singleton_append, List.head?_cons]
        decide)) ?_
      refine an_peel _ _ (by decide) (Or.inl (by decide)) ?_
      refine an_peel _ _ (by decide) (Or.inl (by decide)) ?_
      exact an_not_mem_digits p
  | deleteOp c p =>
      show (('a', 'n') : Char × Char) ∉ charPairs
        (("delete ".data ++ [qc] ++ [c] ++ [qc] ++ " at position ".data ++
          natDigits p).map Char.toLower)
      simp only [List.map_append, map_toLower_natDigits]
      rw [show (List.map Char.toLower "delete ".data) = "delete ".data from by decide,
        show (List.map Char.toLower " at position ".data) = " at position ".data from by decide,
        show (List.map Char.toLower [qc]) = [qc] from by decide]
      simp only [List.map_cons, List.map_nil]
      simp only [List.append_assoc]
      refine an_peel _ _ (by decide) (Or.inl (by decide)) ?_
      refine an_peel _ _ (by decide) (Or.inl (by decide)) ?_
      refine an_peel _ _ (by simp [charPairs]) (Or.inr (by
        simp only [List.singleton_append, List.head?_cons]
        decide)) ?_
      refine an_peel _ _ (by decide) (Or.inl (by decide)) ?_
      refine an_peel _ _ (by decide) (Or.inl (by decide)) ?_
      exact an_not_mem_digits p
  | insertOp c p =>
      show (('a', 'n') : Char × Char) ∉ charPairs
        (("insert ".data ++ [qc] ++ [c] ++ [qc] ++ " at position ".data ++
          natDigits p).map Char.toLower)
      simp only [List.map_append, map_toLower_natDigits]
      rw [show (List.map Char.toLower "insert ".data) = "insert ".data from by decide,
        show (List.map Char.toLower " at position ".data) = " at position ".data from by decide,
        show (List.map Char.toLower [qc]) = [qc] from by decide]
      simp only [List.map_cons, List.map_nil]
      simp only [List.append_assoc]
      refine an_peel _ _ (by decide) (Or.inl (by decide)) ?_
      refine an_peel _ _ (by decide) (Or.inl (by decide)) ?_
      refine an_peel _ _ (by simp [charPairs]) (Or.inr (by
        simp only [List.singleton_append, List.head?_cons]
        decide)) ?_
      refine an_peel _ _ (by decide) (Or.inl (by decide)) ?_
      refine an_peel _ _ (by decide) (Or.inl (by decide)) ?_
      exact an_not_mem_digits p

/-- The lower-cased rendered operation strings never contain `-transpose-`. -/
theorem renderOp_no_transpose (op : EditOp) :
    containsSub "transpose".data ((renderOp op).map Char.toLower) = false := by
  cases hb : containsSub "transpose".data ((renderOp op).map Char.toLower) with
  | false => rfl
  | true =>
      obtain ⟨pre, post, heq⟩ := (containsSub_iff "transpose".data _).mp hb
      have hpair : (('a', 'n') : Char × Char) ∈
          charPairs ((renderOp op).map Char.toLower) := by
        rw [heq]
        exact charPairs_append_left _ post _
          (charPairs_append_right pre _ _ (by decide))
      exact absurd hpair (an_not_mem_lower_render op)

/-- C9: the classifier can never return `-transposition-` (the trace only
contains substitute / delete / insert operations, whose rendered strings never
contain `-transpose-`), so no error record of `check_text` ever carries the
`-transposition-` type declared in the output schema. -/
theorem C9_no_transposition :
    (∀ (S : SpellChecker) (original corrected : String),
      classify_error_type S original corrected ≠ "transposition") ∧
    (∀ (S : SpellChecker) (tokens : List String) (mt : String) (r : CheckResult),
      check_text S tokens mt = some r → ∀ e ∈ r.errors, e.type ≠ "transposition") := by
  have hclass : ∀ (S : SpellChecker) (original corrected : String),
      classify_error_type S original corrected ≠ "transposition" := by
    intro S o c
    rw [classify_error_type]
    split_ifs with h1 h2 h3 h4 h5 h6 h7
    · decide
    · decide
    · exfalso
      rcases List.any_eq_true.mp h3 with ⟨op, hmem, hop⟩
      rw [renderOp_no_transpose op] at hop
      exact Bool.noConfusion hop
    · decide
    · decide
    · decide
    · decide
    · decide
  refine ⟨hclass, ?_⟩
  intro S tokens mt r h e he
  rw [check_text] at h
  cases hm : tokens.enum.mapM (fun iw => checkToken S mt tokens iw.1 iw.2) with
  | none => rw [hm] at h; exact Option.noConfusion h
  | some results =>
      rw [hm] at h
      simp only [Option.map_some', Option.some.injEq] at h
      subst h
      simp only at he
      obtain ⟨hlen, hpt⟩ := check_text_results S tokens mt results hm
      obtain ⟨res, hres, hres2⟩ := List.mem_filterMap.mp he
      obtain ⟨⟨k, hk2⟩, hkres⟩ := List.mem_iff_get.mp hres
      have hrec := checkToken_record S mt tokens k (tokens.get ⟨k, by omega⟩)
        res e (by rw [← hkres]; exact hpt k (by omega) hk2) hres2
      rcases hrec.2.2.2 with htype | ⟨corrected, htype⟩
      · rw [htype]; decide
      · rw [htype]
        exact hclass S _ corrected

theorem C9_no_transposition_witness :
    classify_error_type homS "teh" "the" ≠ "transposition" ∧
      ileumRecord.type ≠ "transposition" :=
  ⟨C9_no_transposition.1 homS "teh" "the",
   C9_no_transposition.2 homS ["patient", "ileum"] "bigram" homSResult
     homS_check_text ileumRecord (by simp [homSResult])⟩


/-! ### C2: candidate generation -/

/-- Lexicographic (code-point) order on character lists: Python's string
comparison. -/
def charListLe : List Char → List Char → Bool
  | [], _ => true
  | _ :: _, [] => false
  | x :: xs, y :: ys => if x = y then charListLe xs ys else decide (x < y)

/-- Modelled from the spec: candidate generation as §4.3 words it — exactly the
vocabulary words with `d ≤ max_distance`, paired with the combined score,
sorted ascending by the combined score *with ties broken by natural string
order*, truncated to `max_candidates`. -/
def get_candidates_spec (E : EditDistanceCalculator) (word : String)
    (vocabulary : List String) (max_candidates : Nat) : List (String × ℚ) :=
  (stableSort (fun x y => x.2 < y.2 ∨ (x.2 = y.2 ∧ charListLe x.1.data y.1.data))
    (vocabulary.filterMap (fun v =>
      if (if E.allow_transpose then
            damerau_levenshtein_distance E word.data v.data
          else levenshtein_distance E word.data v.data) ≤ E.max_distance then
        some (v, (1/2 : ℚ) *
            ((if E.allow_transpose then
                damerau_levenshtein_distance E word.data v.data
              else levenshtein_distance E word.data v.data : Nat) : ℚ) +
          (3/10) * weighted_edit_distance E word.data v.data +
          (1/5) * (phonetic_distance E word.data v.data : ℚ))
      else none))).take max_candidates

/-- With unit insertion and deletion costs both distances dominate the length
difference, so the length pre-filter of `get_candidates_by_distance` drops no
word within `max_distance`. -/
theorem distance_ge_length_diff (E : EditDistanceCalculator)
    (hins : E.insertion_cost = 1) (hdel : E.deletion_cost = 1)
    (a b : List Char) :
    ((a.length : Int) - (b.length : Int)).natAbs ≤
        levenshtein_distance E a b ∧
      ((a.length : Int) - (b.length : Int)).natAbs ≤
        damerau_levenshtein_distance E a b := by
  constructor
  · rw [levenshtein_distance_eq_levTable E (by rw [hins, hdel]), hins, hdel]
    have h1 := levTable_lower_left E.substitution_cost a b a.length b.length
    have h2 := levTable_lower_right E.substitution_cost a b a.length b.length
    omega
  · show _ ≤ dlTable E.insertion_cost E.deletion_cost a b a.length b.length
    rw [hins, hdel]
    have h1 := dlTable_lower_left a b a.length b.length le_rfl le_rfl
    have h2 := dlTable_lower_right a b a.length b.length le_rfl le_rfl
    omega

/-- C2 (amended): with the default unit insertion and deletion costs,
`get_candidates_by_distance` returns exactly the vocabulary words whose chosen
edit distance is at most `max_distance` (the length pre-filter is redundant),
each paired with `0.5*d + 0.3*wd + 0.2*pd`, stably sorted ascending by that
combined score — ties are broken by the vocabulary iteration order, not by
natural string order — and truncated to `max_candidates`. -/
theorem C2_candidates_amended (E : EditDistanceCalculator)
    (hins : E.insertion_cost = 1) (hdel : E.deletion_cost = 1)
    (word : String) (vocabulary : List String) (max_candidates : Nat) :
    get_candidates_by_distance E word vocabulary max_candidates =
      (stableSort (fun x y => x.2 ≤ y.2)
        (vocabulary.filterMap (fun v =>
          if (if E.allow_transpose then
                damerau_levenshtein_distance E word.data v.data
              else levenshtein_distance E word.data v.data) ≤ E.max_distance then
            some (v, (1/2 : ℚ) *
                ((if E.allow_transpose then
                    damerau_levenshtein_distance E word.data v.data
                  else levenshtein_distance E word.data v.data : Nat) : ℚ) +
              (3/10) * weighted_edit_distance E word.data v.data +
              (1/5) * (phonetic_distance E word.data v.data : ℚ))
          else none))).take max_candidates ∧
      (get_candidates_by_distance E word vocabulary max_candidates).Pairwise
        (fun x y => x.2 ≤ y.2) := by
  have hfilter : (vocabulary.filterMap (fun v =>
      if E.max_distance < ((word.length : Int) - (v.length : Int)).natAbs then
        none
      else
        if (if E.allow_transpose then
              damerau_levenshtein_distance E word.data v.data
            else levenshtein_distance E word.data v.data) ≤ E.max_distance then
          some (v, (1/2 : ℚ) *
              ((if E.allow_transpose then
                  damerau_levenshtein_distance E word.data v.data
                else levenshtein_distance E word.data v.data : Nat) : ℚ) +
            (3/10) * weighted_edit_distance E word.data v.data +
            (1/5) * (phonetic_distance E word.data v.data : ℚ))
        else none)) =
      (vocabulary.filterMap (fun v =>
        if (if E.allow_transpose then
              damerau_levenshtein_distance E word.data v.data
            else levenshtein_distance E word.data v.data) ≤ E.max_distance then
          some (v, (1/2 : ℚ) *
              ((if E.allow_transpose then
                  damerau_levenshtein_distance E word.data v.data
                else levenshtein_distance E word.data v.data : Nat) : ℚ) +
            (3/10) * weighted_edit_distance E word.data v.data +
            (1/5) * (phonetic_distance E word.data v.data : ℚ))
        else none)) := by
    apply List.filterMap_congr
    intro v _
    by_cases hlen : E.max_distance <
        ((word.length : Int) - (v.length : Int)).natAbs
    · rw [if_pos hlen]
      have hword : word.length = word.data.length := rfl
      have hv : v.length = v.data.length := rfl
      have hd := distance_ge_length_diff E hins hdel word.data v.data
      rw [if_neg]
      intro hle
      have h1 := hd.1
      have h2 := hd.2
      rw [← hword, ← hv] at h1 h2
      by_cases ht : E.allow_transpose = true
      · rw [if_pos ht] at hle
        omega
      · rw [if_neg ht] at hle
        omega
    · rw [if_neg hlen]
  constructor
  · rw [get_candidates_by_distance, hfilter]
  · rw [get_candidates_by_distance]
    refine List.Pairwise.sublist (List.take_sublist _ _) ?_
    refine List.Pairwise.imp (fun h => by simpa using h)
      (stableSort_pairwise _ (fun a b => ?_) (fun a b c hab hbc => ?_) _)
    · rcases le_total a.2 b.2 with h | h
      · exact Or.inl (by simpa using h)
      · exact Or.inr (by simpa using h)
    · simp only [decide_eq_true_eq] at hab hbc ⊢
      exact le_trans hab hbc

set_option maxHeartbeats 1000000 in
set_option maxRecDepth 4096 in
/-- C2 (counterexample): on word `aa` over vocabulary `[ac, ab]` both
candidates get the same combined score 1, and the code keeps the vocabulary
iteration order (`ac` before `ab`), while the spec's natural-string-order
tie-break would put `ab` first. -/
theorem C2_candidates_counterexample :
    get_candidates_by_distance defaultEditCalc "aa" ["ac", "ab"] 20 =
        [("ac", 1), ("ab", 1)] ∧
      get_candidates_spec defaultEditCalc "aa" ["ac", "ab"] 20 =
        [("ab", 1), ("ac", 1)] ∧
      get_candidates_by_distance defaultEditCalc "aa" ["ac", "ab"] 20 ≠
        get_candidates_spec defaultEditCalc "aa" ["ac", "ab"] 20 := by
  have htr : defaultEditCalc.allow_transpose = true := rfl
  have hmd : defaultEditCalc.max_distance = 2 := rfl
  have hlaa : ("aa" : String).length = 2 := rfl
  have hlac : ("ac" : String).length = 2 := rfl
  have hlab : ("ab" : String).length = 2 := rfl
  have hdaa : ("aa" : String).data = ['a', 'a'] := rfl
  have hdac : ("ac" : String).data = ['a', 'c'] := rfl
  have hdab : ("ab" : String).data = ['a', 'b'] := rfl
  have hdl_ac : damerau_levenshtein_distance defaultEditCalc
      ("aa" : String).data ("ac" : String).data = 1 := by
    simp [damerau_levenshtein_distance, dlTable, lastRow, defaultEditCalc]
  have hdl_ab : damerau_levenshtein_distance defaultEditCalc
      ("aa" : String).data ("ab" : String).data = 1 := by
    simp [damerau_levenshtein_distance, dlTable, lastRow, defaultEditCalc]
  have hwd_ac : weighted_edit_distance defaultEditCalc
      ("aa" : String).data ("ac" : String).data = 1 := by
    simp [weighted_edit_distance, weightedRows, weightedRow, keyboardAdjacent,
      keyboard_layout, alistGet, defaultEditCalc, List.find?, min_def]
  have hwd_ab : weighted_edit_distance defaultEditCalc
      ("aa" : String).data ("ab" : String).data = 1 := by
    simp [weighted_edit_distance, weightedRows, weightedRow, keyboardAdjacent,
      keyboard_layout, alistGet, defaultEditCalc, List.find?, min_def]
  have hpd_ac : phonetic_distance defaultEditCalc
      ("aa" : String).data ("ac" : String).data = 1 := by
    simp [phonetic_distance, normalize_phonetic, phonetic_map, replaceAll,
      beginsWith, levenshtein_distance, levRows, levRow, defaultEditCalc,
      min_def]
  have hpd_ab : phonetic_distance defaultEditCalc
      ("aa" : String).data ("ab" : String).data = 1 := by
    simp [phonetic_distance, normalize_phonetic, phonetic_map, replaceAll,
      beginsWith, levenshtein_distance, levRows, levRow, defaultEditCalc,
      min_def]
  have h1 : get_candidates_by_distance defaultEditCalc "aa" ["ac", "ab"] 20 =
      [("ac", 1), ("ab", 1)] := by
    rw [get_candidates_by_distance]
    norm_num [htr, hmd, hlaa, hlac, hlab, hdl_ac, hdl_ab, hwd_ac, hwd_ab,
      hpd_ac, hpd_ab, stableSort, insertSorted, List.filterMap, List.take]
  have h2 : get_candidates_spec defaultEditCalc "aa" ["ac", "ab"] 20 =
      [("ab", 1), ("ac", 1)] := by
    rw [get_candidates_spec]
    norm_num [htr, hmd, hlaa, hlac, hlab, hdaa, hdac, hdab, hdl_ac, hdl_ab,
      hwd_ac, hwd_ab, hpd_ac, hpd_ab, stableSort, insertSorted, charListLe,
      List.filterMap, List.take]
  exact ⟨h1, h2, by rw [h1, h2]; simp⟩

/-- C2 witness: the amended theorem applied to the default calculator (unit
insertion and deletion costs) at a concrete input. -/
theorem C2_candidates_amended_witness :
    defaultEditCalc.insertion_cost = 1 ∧ defaultEditCalc.deletion_cost = 1 ∧
      (get_candidates_by_distance defaultEditCalc "aa" ["ac", "ab"] 20).Pairwise
        (fun x y => x.2 ≤ y.2) :=
  ⟨rfl, rfl,
    (C2_candidates_amended defaultEditCalc rfl rfl "aa" ["ac", "ab"] 20).2⟩

/-! ### C1: out-of-vocabulary candidate scoring -/

theorem forall₂_mem_right {α β : Type} {R : α → β → Prop} {l : List α}
    {r : List β} (h : List.Forall₂ R l r) :
    ∀ y ∈ r, ∃ x ∈ l, R x y := by
  induction h with
  | nil => intro y hy; simp at hy
  | cons hR hF ih =>
      intro y hy
      rcases List.mem_cons.mp hy with rfl | hy2
      · exact ⟨_, List.mem_cons_self _ _, hR⟩
      · obtain ⟨x, hx, hRx⟩ := ih y hy2
        exact ⟨x, List.mem_cons_of_mem _ hx, hRx⟩

/-- C1 (amended): every suggestion emitted for an out-of-vocabulary token comes
from a pair `(word, comb)` of `get_candidates_by_distance`, where `comb` is the
*combined* score `0.5*d + 0.3*wd + 0.2*pd` — the loop unpacks that second
component as `edit_distance` — so the final score divides by `1 + comb`, not by
`1 + d`, and the `edit_distance` field of the suggestion reports `comb`, not the
integer edit distance of candidate generation. -/
theorem C1_oov_scoring (S : SpellChecker) (mt : String) (tokens : List String)
    (i : Nat) (word : String) (t : String × Option ErrorRecord)
    (e : ErrorRecord) (s : Suggestion)
    (hw : ¬ (word ∈ S.vocab ∨ ¬ pyIsAlpha word))
    (ht : checkToken S mt tokens i word = some t)
    (he : t.2 = some e) (hs : s ∈ e.suggestions) :
    ∃ comb fs,
      (s.word, comb) ∈
          get_candidates_by_distance S.edc word S.vocab S.max_candidates ∧
        get_frequency_score S.fm s.word (checkContext tokens i) mt = some fs ∧
        s.edit_distance = comb ∧
        s.frequency_score = pyRound fs 6 ∧
        s.is_medical = S.medical_terms.contains s.word ∧
        ∃ total, s.score =
          if 0 < total then
            pyRound (fs * (if S.medical_terms.contains s.word then
              S.domain_weight else 1) / (1 + comb) / total) 3
          else 0 := by
  rw [checkToken, if_neg hw] at ht
  cases hsc : oovScored S mt (checkContext tokens i) word with
  | none => rw [hsc] at ht; simp at ht
  | some scoredRaw =>
      rw [hsc] at ht
      simp only [Option.some_bind] at ht
      cases hsort : stableSort (fun x y => y.2.1 ≤ x.2.1) scoredRaw with
      | nil =>
          rw [hsort] at ht
          simp only [Option.some.injEq] at ht
          rw [← ht] at he
          simp at he
      | cons best rest =>
          rw [hsort] at ht
          simp only [Option.some.injEq] at ht
          subst ht
          have he2 : some
              { original := word
                suggestions := mkSuggestions S
                  (((best :: rest).map (fun sc => sc.2.1)).sum) (best :: rest)
                position := i
                confidence :=
                  if 0 < ((best :: rest).map (fun sc => sc.2.1)).sum then
                    pyRound (best.2.1 /
                      ((best :: rest).map (fun sc => sc.2.1)).sum) 3
                  else 0
                type := classify_error_type S word best.1
                context := checkContext tokens i : ErrorRecord } = some e := he
          injection he2 with hre
          subst hre
          have hs2 : s ∈ mkSuggestions S
              (((best :: rest).map (fun sc => sc.2.1)).sum) (best :: rest) := hs
          rw [mkSuggestions] at hs2
          obtain ⟨sc, hsctake, hf⟩ := List.mem_map.mp hs2
          have hmem1 : sc ∈ stableSort (fun x y => y.2.1 ≤ x.2.1) scoredRaw := by
            rw [hsort]
            exact List.take_subset _ _ hsctake
          have hmem : sc ∈ scoredRaw :=
            (stableSort_perm _ scoredRaw).mem_iff.mp hmem1
          rw [oovScored] at hsc
          obtain ⟨ced, hced, hov⟩ :=
            forall₂_mem_right (mapM_option_forall₂ _ _ _ hsc) sc hmem
          rw [oovScore] at hov
          cases hfs : get_frequency_score S.fm ced.1 (checkContext tokens i) mt with
          | none => rw [hfs] at hov; simp at hov
          | some fs =>
              rw [hfs] at hov
              simp only [Option.map_some', Option.some.injEq] at hov
              subst hov
              subst hf
              exact ⟨ced.2, fs, hced, hfs, rfl, rfl, rfl,
                ((best :: rest).map (fun sc => sc.2.1)).sum, rfl⟩

/-- A one-word language model (`none` smoothing) for the C1 scenario. -/
def c1Model : FrequencyManager :=
  { unigram_freq := [("the", 1)]
    bigram_freq := []
    trigram_freq := []
    total_words := 1
    vocabulary_size := 1
    smoothing_method := "none" }

/-- A one-word engine: vocabulary `{the}`, no medical terms. -/
def c1S : SpellChecker :=
  { vocab := ["the"]
    medical_terms := []
    domain_weight := 2
    fm := c1Model
    edc := defaultEditCalc
    max_candidates := 20
    max_suggestions := 5
    homophone_enabled := true }

set_option maxHeartbeats 1000000 in
set_option maxRecDepth 4096 in
theorem c1_dl : damerau_levenshtein_distance defaultEditCalc
    ("teh" : String).data ("the" : String).data = 1 := by
  simp [damerau_levenshtein_distance, dlTable, lastRow, defaultEditCalc]

set_option maxHeartbeats 1000000 in
set_option maxRecDepth 4096 in
theorem c1_wd : weighted_edit_distance defaultEditCalc
    ("teh" : String).data ("the" : String).data = 2 := by
  simp [weighted_edit_distance, weightedRows, weightedRow, keyboardAdjacent,
    keyboard_layout, alistGet, defaultEditCalc, List.find?, min_def]
  norm_num

set_option maxHeartbeats 1000000 in
set_option maxRecDepth 4096 in
theorem c1_pd : phonetic_distance defaultEditCalc
    ("teh" : String).data ("the" : String).data = 2 := by
  simp [phonetic_distance, normalize_phonetic, phonetic_map, replaceAll,
    beginsWith, levenshtein_distance, levRows, levRow, defaultEditCalc,
    min_def]

theorem c1_prob : get_word_probability c1Model "the" = some 1 := by
  rw [get_word_probability,
    if_neg (by decide : ¬ c1Model.smoothing_method = "add-one"),
    if_neg (by decide : ¬ c1Model.smoothing_method = "good-turing")]
  simp [unigramCount, alistGet, c1Model, List.find?]

theorem c1_fs : get_frequency_score c1Model "the" [] "unigram" = some 1 := by
  rw [get_frequency_score, c1_prob]
  simp only [Option.some_bind]
  rw [if_neg (by simp)]
  simp only [Option.map_some', Option.some.injEq]
  norm_num

set_option maxHeartbeats 1000000 in
theorem c1_cands :
    get_candidates_by_distance defaultEditCalc "teh" ["the"] 20 =
      [("the", 3/2)] := by
  have htr : defaultEditCalc.allow_transpose = true := rfl
  have hmd : defaultEditCalc.max_distance = 2 := rfl
  have hl1 : ("teh" : String).length = 3 := rfl
  have hl2 : ("the" : String).length = 3 := rfl
  have hdl2 : damerau_levenshtein_distance defaultEditCalc
      ['t', 'e', 'h'] ['t', 'h', 'e'] = 1 := c1_dl
  have hwd2 : weighted_edit_distance defaultEditCalc
      ['t', 'e', 'h'] ['t', 'h', 'e'] = 2 := c1_wd
  have hpd2 : phonetic_distance defaultEditCalc
      ['t', 'e', 'h'] ['t', 'h', 'e'] = 2 := c1_pd
  rw [get_candidates_by_distance]
  norm_num [htr, hmd, hl1, hl2, c1_dl, c1_wd, c1_pd, hdl2, hwd2, hpd2,
    stableSort, insertSorted, List.filterMap, List.take]

set_option maxHeartbeats 1000000 in
theorem c1_ops_len :
    (get_edit_operations ("teh" : String).data ("the" : String).data).length =
      2 := by
  rw [get_edit_operations, List.length_reverse, backtraceOps_length,
    opsTable_eq_levTable]
  simp [levTable]


theorem c1_type : classify_error_type c1S "teh" "the" = "typo" := by
  have hlen := c1_ops_len
  rw [classify_error_type]
  rw [if_neg (by decide : ¬ ((((get_homophones "teh").map
    (fun h => lowerStr h)).contains (lowerStr "the")) = true))]
  rw [if_neg (fun hnil => by rw [hnil] at hlen; simp at hlen)]
  rw [if_neg (fun hany => by
    obtain ⟨op, hop, hc⟩ := List.any_eq_true.mp hany
    rw [renderOp_no_transpose] at hc
    exact Bool.false_ne_true hc)]
  rw [if_neg (fun hc => by rw [hlen] at hc; exact absurd hc.1 (by decide))]
  rw [if_neg (fun hc => by rw [hlen] at hc; exact absurd hc.1 (by decide))]
  rw [if_neg (fun hc => by rw [hlen] at hc; exact absurd hc.1 (by decide))]
  rw [if_neg (by
    rw [show c1S.edc = defaultEditCalc from rfl, c1_pd, hlen]
    decide)]

/-- The suggestion emitted for `"teh"` by `c1S`: its `edit_distance` field holds
the combined score `3/2`, not the integer Damerau-Levenshtein distance `1`. -/
def c1Suggestion : Suggestion :=
  { word := "the", score := 1, frequency_score := 1, edit_distance := 3/2,
    is_medical := false }

/-- The error record emitted for `"teh"` by `c1S`. -/
def c1Record : ErrorRecord :=
  { original := "teh", suggestions := [c1Suggestion], position := 0,
    confidence := 1, type := "typo", context := [] }

theorem c1_token :
    checkToken c1S "unigram" ["teh"] 0 "teh" = some ("the", some c1Record) := by
  have hctx : checkContext ["teh"] 0 = [] := by decide
  have hov : oovScore c1S "unigram" [] ("the", (3/2 : ℚ)) =
      some ("the", (2/5 : ℚ), (1 : ℚ), (3/2 : ℚ)) := by
    rw [oovScore, show c1S.fm = c1Model from rfl]
    rw [show (("the", (3/2 : ℚ)) : String × ℚ).1 = "the" from rfl, c1_fs]
    simp only [Option.map_some', Option.some.injEq, Prod.mk.injEq]
    rw [if_neg (by decide : ¬ (c1S.medical_terms.contains "the" = true))]
    norm_num
  have hosc : oovScored c1S "unigram" [] "teh" =
      some [("the", (2/5 : ℚ), (1 : ℚ), (3/2 : ℚ))] := by
    rw [oovScored, show c1S.edc = defaultEditCalc from rfl,
      show c1S.vocab = ["the"] from rfl,
      show c1S.max_candidates = 20 from rfl, c1_cands]
    simp only [List.mapM_cons, List.mapM_nil, hov, Option.pure_def,
      Option.bind_eq_bind, Option.some_bind, Option.map_some']
  rw [checkToken, if_neg (by decide : ¬ ("teh" ∈ c1S.vocab ∨ ¬ pyIsAlpha "teh")),
    hctx, hosc]
  simp only [Option.some_bind]
  rw [show stableSort (fun x y => y.2.1 ≤ x.2.1)
      [(("the" : String), (2/5 : ℚ), (1 : ℚ), (3/2 : ℚ))] =
      [(("the" : String), (2/5 : ℚ), (1 : ℚ), (3/2 : ℚ))] from by
    simp [stableSort, insertSorted]]
  have hp3 : pyRound (1 : ℚ) 3 = 1 := by
    rw [pyRound_eval _ _ 1000 (by norm_num) (by norm_num)]
    norm_num
  have hp6 : pyRound (1 : ℚ) 6 = 1 := by
    rw [pyRound_eval _ _ 1000000 (by norm_num) (by norm_num)]
    norm_num
  simp only [List.map_cons, List.map_nil, List.sum_cons, List.sum_nil,
    mkSuggestions, List.take, Option.some.injEq, Prod.mk.injEq]
  norm_num [hp3, hp6, c1_type]
  simp [c1Record, c1Suggestion, show c1S.medical_terms = [] from rfl]

/-- The full result of `check_text c1S ["teh"] "unigram"`. -/
def c1Result : CheckResult :=
  { corrected_text := "the"
    errors := [c1Record]
    statistics := CorrectionStatistics.stats 1 [("typo", 1)] 1 0 0 }

theorem c1_stats :
    get_correction_statistics [c1Record] =
      CorrectionStatistics.stats 1 [("typo", 1)] 1 0 0 := by
  rw [get_correction_statistics]
  have hp3 : pyRound (1 : ℚ) 3 = 1 := by
    rw [pyRound_eval _ _ 1000 (by norm_num) (by norm_num)]
    norm_num
  have hp0 : pyRound (0 : ℚ) 3 = 0 := by
    rw [pyRound_eval _ _ 0 (by norm_num) (by norm_num)]
    norm_num
  simp [bumpType, c1Record, c1Suggestion, List.find?, hp3, hp0]

theorem c1_check : check_text c1S ["teh"] "unigram" = some c1Result := by
  have henum : (["teh"] : List String).enum = [(0, "teh")] := by decide
  rw [check_text, henum]
  simp only [List.mapM_cons, List.mapM_nil, c1_token, Option.pure_def,
    Option.bind_eq_bind, Option.some_bind, Option.map_some', Option.some.injEq]
  rw [c1Result]
  simp only [List.map_cons, List.map_nil, List.filterMap]
  refine CheckResult.mk.injEq _ _ _ _ _ _ ▸ ?_
  refine ⟨by decide, rfl, ?_⟩
  simpa using c1_stats

/-- C1 (counterexample): on the engine `c1S` and text `teh`, the emitted
suggestion for the candidate `the` carries `edit_distance = 3/2` — the combined
score `0.5*1 + 0.3*2 + 0.2*2` — while the integer Damerau-Levenshtein distance
of candidate generation is `1`, so the reported (and score-denominator) edit
distance is not the §4.3 step-2 distance. -/
theorem C1_oov_scoring_counterexample :
    (check_text c1S ["teh"] "unigram").map
        (fun r => ((r.errors.headD noErrorRecord).suggestions.headD
          noSuggestion).edit_distance) = some (3/2) ∧
      damerau_levenshtein_distance c1S.edc ("teh" : String).data
        ("the" : String).data = 1 ∧
      ((3 : ℚ)/2) ≠ ((damerau_levenshtein_distance c1S.edc
        ("teh" : String).data ("the" : String).data : Nat) : ℚ) := by
  have hedc : c1S.edc = defaultEditCalc := rfl
  refine ⟨?_, ?_, ?_⟩
  · rw [c1_check]
    simp [c1Result, c1Record, c1Suggestion]
  · rw [hedc]
    exact c1_dl
  · rw [hedc, c1_dl]
    norm_num

/-- C1 witness: the amended theorem applied to the engine `c1S`, token `teh`,
and the emitted suggestion for `the`. -/
theorem C1_oov_scoring_witness :
    (¬ ("teh" ∈ c1S.vocab ∨ ¬ pyIsAlpha "teh")) ∧
      checkToken c1S "unigram" ["teh"] 0 "teh" =
        some ("the", some c1Record) ∧
      (("the", some c1Record) : String × Option ErrorRecord).2 =
        some c1Record ∧
      c1Suggestion ∈ c1Record.suggestions ∧
      (∃ comb fs,
        (c1Suggestion.word, comb) ∈
            get_candidates_by_distance c1S.edc "teh" c1S.vocab
              c1S.max_candidates ∧
          get_frequency_score c1S.fm c1Suggestion.word
            (checkContext ["teh"] 0) "unigram" = some fs ∧
          c1Suggestion.edit_distance = comb ∧
          c1Suggestion.frequency_score = pyRound fs 6 ∧
          c1Suggestion.is_medical =
            c1S.medical_terms.contains c1Suggestion.word ∧
          ∃ total, c1Suggestion.score =
            if 0 < total then
              pyRound (fs * (if c1S.medical_terms.contains c1Suggestion.word
                then c1S.domain_weight else 1) / (1 + comb) / total) 3
            else 0) := by
  have hmem : c1Suggestion ∈ c1Record.suggestions := by
    rw [show c1Record.suggestions = [c1Suggestion] from rfl]
    exact List.mem_cons_self _ _
  exact ⟨by decide, c1_token, rfl, hmem,
    C1_oov_scoring c1S "unigram" ["teh"] 0 "teh" ("the", some c1Record)
      c1Record c1Suggestion (by decide) c1_token rfl hmem⟩
